import Mathlib

/-!
Shallow embedding of `src/week3/main.py` (`power_method`): power iteration on a
dense matrix via numpy.  Scalars are modelled as exact reals extended with the
IEEE special values `+inf`, `-inf` and `nan`, so that numpy's behaviour on
division by zero (infinities and NaNs propagating instead of exceptions) is
captured; rounding is not modelled.  numpy arrays are modelled as a shape
together with a flat data list; every `ValueError` numpy can raise on the
code's paths (the two explicit shape checks, a `matmul` dimension mismatch,
a broadcasting mismatch, and reduction of an empty array) is an `NPError`.
-/

set_option maxHeartbeats 1000000

/-- an IEEE-754-style scalar: a finite real, one of the two infinities, or NaN.
Overflow/rounding of doubles is not modelled; special-value propagation is. -/
inductive NFloat where
  | fin : ℝ → NFloat
  | posInf : NFloat
  | negInf : NFloat
  | nan : NFloat

instance : Inhabited NFloat := ⟨NFloat.nan⟩

namespace NFloat

/-- IEEE negation. -/
noncomputable def neg : NFloat → NFloat
  | fin x => fin (-x)
  | posInf => negInf
  | negInf => posInf
  | nan => nan

/-- IEEE addition (exact on finite values; `inf + -inf = nan`; NaN absorbs). -/
noncomputable def add : NFloat → NFloat → NFloat
  | fin x, fin y => fin (x + y)
  | fin _, posInf => posInf
  | fin _, negInf => negInf
  | fin _, nan => nan
  | posInf, fin _ => posInf
  | posInf, posInf => posInf
  | posInf, negInf => nan
  | posInf, nan => nan
  | negInf, fin _ => negInf
  | negInf, posInf => nan
  | negInf, negInf => negInf
  | negInf, nan => nan
  | nan, _ => nan

/-- IEEE subtraction, as addition of the negation. -/
noncomputable def sub (a b : NFloat) : NFloat := add a (neg b)

/-- IEEE multiplication (`0 * inf = nan`; NaN absorbs). -/
noncomputable def mul : NFloat → NFloat → NFloat
  | fin x, fin y => fin (x * y)
  | fin x, posInf => if x = 0 then nan else if 0 < x then posInf else negInf
  | fin x, negInf => if x = 0 then nan else if 0 < x then negInf else posInf
  | fin _, nan => nan
  | posInf, fin y => if y = 0 then nan else if 0 < y then posInf else negInf
  | posInf, posInf => posInf
  | posInf, negInf => negInf
  | posInf, nan => nan
  | negInf, fin y => if y = 0 then nan else if 0 < y then negInf else posInf
  | negInf, posInf => negInf
  | negInf, negInf => posInf
  | negInf, nan => nan
  | nan, _ => nan

/-- IEEE division: `x / 0` is `nan` for `x = 0` and a signed infinity
otherwise (numpy emits a warning but no exception); `inf / inf = nan`;
NaN absorbs.  Signed zero is not modelled (all zeros are `+0`), which agrees
with every zero this program can produce. -/
noncomputable def div : NFloat → NFloat → NFloat
  | fin x, fin y =>
      if y = 0 then (if x = 0 then nan else if 0 < x then posInf else negInf)
      else fin (x / y)
  | fin _, posInf => fin 0
  | fin _, negInf => fin 0
  | fin _, nan => nan
  | posInf, fin y => if 0 ≤ y then posInf else negInf
  | posInf, posInf => nan
  | posInf, negInf => nan
  | posInf, nan => nan
  | negInf, fin y => if 0 ≤ y then negInf else posInf
  | negInf, posInf => nan
  | negInf, negInf => nan
  | negInf, nan => nan
  | nan, _ => nan

/-- IEEE square root: `nan` on negative inputs and on NaN, `inf` on `+inf`. -/
noncomputable def sqrtN : NFloat → NFloat
  | fin x => if x < 0 then nan else fin (Real.sqrt x)
  | posInf => posInf
  | negInf => nan
  | nan => nan

/-- the binary maximum used by `np.max` (`np.maximum.reduce`): NaN propagates. -/
noncomputable def max2 : NFloat → NFloat → NFloat
  | fin x, fin y => fin (max x y)
  | fin _, posInf => posInf
  | fin x, negInf => fin x
  | fin _, nan => nan
  | posInf, fin _ => posInf
  | posInf, posInf => posInf
  | posInf, negInf => posInf
  | posInf, nan => nan
  | negInf, fin y => fin y
  | negInf, posInf => posInf
  | negInf, negInf => negInf
  | negInf, nan => nan
  | nan, _ => nan

/-- IEEE strict less-than: any comparison with NaN is false. -/
noncomputable def flt : NFloat → NFloat → Bool
  | fin x, fin y => decide (x < y)
  | fin _, posInf => true
  | fin _, negInf => false
  | fin _, nan => false
  | posInf, fin _ => false
  | posInf, posInf => false
  | posInf, negInf => false
  | posInf, nan => false
  | negInf, fin _ => true
  | negInf, posInf => true
  | negInf, negInf => false
  | negInf, nan => false
  | nan, _ => false

/-- tests whether a scalar is (floating-point) zero; used only to formalise
the spec's phrase "components i where x[i] ≠ 0". -/
noncomputable def isZeroF : NFloat → Bool
  | fin x => decide (x = 0)
  | _ => false

end NFloat

/-- a numpy `ndarray`: a shape together with the flattened (row-major) data.
`WF` below states the coherence every real numpy array satisfies. -/
structure NDArray where
  shape : List Nat
  data : List NFloat

/-- coherence of an `NDArray`: the data holds exactly `prod shape` scalars. -/
def WF (a : NDArray) : Prop := a.data.length = a.shape.prod

/-- `np.squeeze`: drop every axis of extent 1; the data is untouched. -/
def squeeze (a : NDArray) : NDArray :=
  ⟨a.shape.filter (fun d => decide (d ≠ 1)), a.data⟩

/-- the `ValueError`s numpy raises on this program's paths.  All of them are
shape errors except `emptyReduce` (reduction of a zero-size array, which the
program can only hit when the matrix has a zero extent). -/
inductive NPError where
  | aNotTwoD
  | x0Shape
  | matmulShape
  | broadcastShape
  | emptyReduce

/-- the rows of an `m x n` matrix stored as a row-major flat list. -/
def chunkRows (m n : ℕ) (d : List NFloat) : List (List NFloat) :=
  (List.range m).map (fun i => (d.drop (i * n)).take n)

/-- dot product of two equal-length vectors, summed left to right from 0,
as `np.matmul` does for one row. -/
noncomputable def dot (r x : List NFloat) : NFloat :=
  (List.zipWith NFloat.mul r x).foldl NFloat.add (NFloat.fin 0)

/-- sum of squares of a vector (left fold from 0). -/
noncomputable def sumsq (v : List NFloat) : NFloat :=
  (v.map (fun a => NFloat.mul a a)).foldl NFloat.add (NFloat.fin 0)

/-- `np.linalg.norm` on a 1-D array: the Euclidean norm. -/
noncomputable def norml2 (v : List NFloat) : NFloat := NFloat.sqrtN (sumsq v)

/-- `A @ x` for a 2-D `A` of shape `(m, n)` and a 1-D `x`: numpy raises a
shape `ValueError` unless `x` has length `n`. -/
noncomputable def matvec (m n : ℕ) (d : List NFloat) (x : List NFloat) :
    Except NPError (List NFloat) :=
  if x.length = n then .ok ((chunkRows m n d).map (fun r => dot r x))
  else .error .matmulShape

/-- numpy broadcasting of a binary elementwise operation over two 1-D arrays:
equal lengths pair up, a length-1 operand is stretched, anything else is a
broadcast `ValueError`. -/
noncomputable def broadcast2 (f : NFloat → NFloat → NFloat) (u v : List NFloat) :
    Except NPError (List NFloat) :=
  if u.length = v.length then .ok (List.zipWith f u v)
  else if u.length = 1 then .ok (v.map (fun b => f u.headI b))
  else if v.length = 1 then .ok (u.map (fun a => f a v.headI))
  else .error .broadcastShape

/-- `y / np.linalg.norm(y)`: elementwise division by the (scalar) norm. -/
noncomputable def normalizeV (y : List NFloat) : List NFloat :=
  y.map (fun a => NFloat.div a (norml2 y))

/-- one loop body of `power_method`: `y = A @ x`, `x1 = y / ||y||`,
`error = ||x1 - x||`; returns the new iterate and whether `error < eps`. -/
noncomputable def stepOnce (m n : ℕ) (d : List NFloat) (e : NFloat)
    (x : List NFloat) : Except NPError (List NFloat × Bool) :=
  match matvec m n d x with
  | .error er => .error er
  | .ok y =>
    match broadcast2 NFloat.sub (normalizeV y) x with
    | .error er => .error er
    | .ok diff => .ok (normalizeV y, NFloat.flt (norml2 diff) e)

/-- the `for _ in range(max_iter)` loop: runs `stepOnce` until the fuel is
exhausted or the step reports `error < eps`; returns the final iterate and
how many times the body executed. -/
noncomputable def loopGo (m n : ℕ) (d : List NFloat) (e : NFloat) :
    List NFloat → ℕ → Except NPError (List NFloat × ℕ)
  | x, 0 => .ok (x, 0)
  | x, Nat.succ fuel =>
    match stepOnce m n d e x with
    | .error er => .error er
    | .ok p =>
      if p.2 then .ok (p.1, 1)
      else
        match loopGo m n d e p.1 fuel with
        | .error er => .error er
        | .ok q => .ok (q.1, q.2 + 1)

/-- `np.max` over a 1-D array: `ValueError` on a zero-size array, otherwise a
left `np.maximum` reduction (NaN propagates). -/
noncomputable def npMaxE (v : List NFloat) : Except NPError NFloat :=
  match v with
  | [] => .error .emptyReduce
  | h :: t => .ok (t.foldl NFloat.max2 h)

/-- line 52 of the source: `float(np.max(A @ x_i / x_i))` — a fresh
matrix-vector product with the final iterate, elementwise division over ALL
components (zero denominators follow IEEE rules), then the NaN-propagating
maximum. -/
noncomputable def extractEig (m n : ℕ) (d : List NFloat) (x : List NFloat) :
    Except NPError NFloat :=
  match matvec m n d x with
  | .error er => .error er
  | .ok ax =>
    match broadcast2 NFloat.div ax x with
    | .error er => .error er
    | .ok rs => npMaxE rs

/-- lines 39-41 of the source: squeeze the supplied `x0` and fail unless the
result is exactly one-dimensional. -/
noncomputable def validateX0 (arr : NDArray) : Except NPError (List NFloat) :=
  if (squeeze arr).shape.length = 1 then .ok (squeeze arr).data
  else .error .x0Shape

/-- lines 36-41: a missing `x0` defaults to `np.ones(A.shape[1])`, a supplied
one is squeezed and validated. -/
noncomputable def resolveX0 (n : ℕ) (x0 : Option NDArray) :
    Except NPError (List NFloat) :=
  match x0 with
  | none => .ok (List.replicate n (NFloat.fin 1))
  | some arr => validateX0 arr

/-- the loop followed by the eigenvalue extraction (lines 43-53). -/
noncomputable def pmCore (m n : ℕ) (d x0l : List NFloat) (e : NFloat)
    (it : ℕ) : Except NPError (NFloat × List NFloat) :=
  match loopGo m n d e x0l it with
  | .error er => .error er
  | .ok q =>
    match extractEig m n d q.1 with
    | .error er => .error er
    | .ok lam => .ok (lam, q.1)

/-- `power_method(A, x0, eps, max_iter)` from `src/week3/main.py`: validate
that `A` is 2-D, resolve/validate `x0`, iterate, extract the eigenvalue, and
return the `(eigenvalue, eigenvector)` pair. -/
noncomputable def power_method (A : NDArray) (x0 : Option NDArray) (e : NFloat)
    (maxIter : ℕ) : Except NPError (NFloat × List NFloat) :=
  if A.shape.length = 2 then
    match resolveX0 (A.shape.getD 1 0) x0 with
    | .error er => .error er
    | .ok x0l => pmCore A.shape.headI (A.shape.getD 1 0) A.data x0l e maxIter
  else .error .aNotTwoD

/-- true exactly on a non-error result. -/
def isOkE {α : Type} : Except NPError α → Bool
  | .ok _ => true
  | .error _ => false

/-- true exactly on an error result. -/
def isErrE {α : Type} : Except NPError α → Bool
  | .ok _ => false
  | .error _ => true

/-- Modelled from the spec: the eigenvalue estimate as §4.1 step 3 words it —
"the maximum, over all vector components i where `x[i] ≠ 0`, of
`(A · x)[i] / x[i]`" — i.e. the maximum restricted to the components with a
nonzero denominator.  This definition exists only to be compared against what
the code (`extractEig`) actually computes. -/
noncomputable def specEigMax (ax x : List NFloat) : Except NPError NFloat :=
  npMaxE ((List.zip ax x).filterMap
    (fun p => if NFloat.isZeroF p.2 then none else some (NFloat.div p.1 p.2)))

/-- shorthand for the hypothesis that the `x0` argument passes validation and
resolves to the vector `v` of the matrix dimension `n`. -/
noncomputable def ResolvesTo (n : ℕ) (x0 : Option NDArray) (v : List NFloat) : Prop :=
  resolveX0 n x0 = .ok v ∧ v.length = n

/-- the real value of a finite scalar (0 on the special values; only ever
used under a finiteness hypothesis). -/
noncomputable def toRe : NFloat → ℝ
  | NFloat.fin x => x
  | _ => 0

/-- the real sum of squares of a vector of finite scalars. -/
noncomputable def realSumSq (v : List NFloat) : ℝ :=
  (v.map (fun a => toRe a * toRe a)).sum

/-- a vector all of whose entries are finite (no NaN and no infinity). -/
def IsFinV (v : List NFloat) : Prop := ∀ a ∈ v, ∃ r, a = NFloat.fin r

/-- the absorbing set reached by sums of squares once a special value occurs. -/
def IsSpec (a : NFloat) : Prop := a = NFloat.posInf ∨ a = NFloat.nan

namespace NFloat

theorem add_ff (x y : ℝ) : add (fin x) (fin y) = fin (x + y) := rfl

theorem add_f_nan (x : ℝ) : add (fin x) nan = nan := rfl

theorem mul_ff (x y : ℝ) : mul (fin x) (fin y) = fin (x * y) := rfl

theorem mul_f_nan (x : ℝ) : mul (fin x) nan = nan := rfl

theorem mul_nan_any (a : NFloat) : mul nan a = nan := rfl

theorem sub_ff (x y : ℝ) : sub (fin x) (fin y) = fin (x + -y) := rfl

theorem sub_nan_f (x : ℝ) : sub nan (fin x) = nan := rfl

theorem div_ff (x y : ℝ) (h : y ≠ 0) : div (fin x) (fin y) = fin (x / y) := by
  simp [div, h]

theorem div_zero_zero : div (fin 0) (fin 0) = nan := by simp [div]

theorem div_f0_pos (x : ℝ) (h : 0 < x) : div (fin x) (fin 0) = posInf := by
  simp [div, h, ne_of_gt h]

theorem div_nan_any (a : NFloat) : div nan a = nan := rfl

theorem div_f_nan (x : ℝ) : div (fin x) nan = nan := rfl

theorem sqrtN_f (x : ℝ) (h : 0 ≤ x) : sqrtN (fin x) = fin (Real.sqrt x) := by
  simp [sqrtN, not_lt.mpr h]

theorem sqrtN_nan : sqrtN nan = nan := rfl

theorem flt_ff_true {x y : ℝ} (h : x < y) : flt (fin x) (fin y) = true := by
  simp [flt, h]

theorem flt_ff_false {x y : ℝ} (h : ¬ x < y) : flt (fin x) (fin y) = false := by
  simp [flt, h]

theorem flt_nan_any (a : NFloat) : flt nan a = false := rfl

theorem max2_ff (x y : ℝ) : max2 (fin x) (fin y) = fin (max x y) := rfl

theorem max2_f_nan (x : ℝ) : max2 (fin x) nan = nan := rfl

theorem max2_pos_f (x : ℝ) : max2 posInf (fin x) = posInf := rfl

end NFloat

theorem sqrt_four : Real.sqrt 4 = 2 := by
  rw [show (4 : ℝ) = 2 ^ 2 by norm_num]
  exact Real.sqrt_sq (by norm_num)

theorem sqrt_sixteen : Real.sqrt 16 = 4 := by
  rw [show (16 : ℝ) = 4 ^ 2 by norm_num]
  exact Real.sqrt_sq (by norm_num)

theorem one_le_sqrt_two : (1 : ℝ) ≤ Real.sqrt 2 := by
  rw [show (1 : ℝ) = Real.sqrt 1 from (Real.sqrt_one).symm]
  exact Real.sqrt_le_sqrt (by norm_num)

theorem chunkRows_length (m n : ℕ) (d : List NFloat) :
    (chunkRows m n d).length = m := by
  simp [chunkRows]

theorem normalizeV_length (y : List NFloat) :
    (normalizeV y).length = y.length := by
  simp [normalizeV]

theorem matvec_ok_length {m n : ℕ} {d x y : List NFloat}
    (h : matvec m n d x = .ok y) : y.length = m := by
  unfold matvec at h
  split at h
  · cases h
    simp [chunkRows]
  · cases h

theorem matvec_ok_arg_length {m n : ℕ} {d x y : List NFloat}
    (h : matvec m n d x = .ok y) : x.length = n := by
  unfold matvec at h
  split at h
  · assumption
  · cases h

theorem matvec_err_of_len {m n : ℕ} {d x : List NFloat} (h : x.length ≠ n) :
    matvec m n d x = .error .matmulShape := by
  simp [matvec, h]

theorem matvec_ok_of_len {m n : ℕ} {d x : List NFloat} (h : x.length = n) :
    matvec m n d x = .ok ((chunkRows m n d).map (fun r => dot r x)) := by
  simp [matvec, h]

theorem stepOnce_ok_inv {m n : ℕ} {d : List NFloat} {e : NFloat}
    {x : List NFloat} {p : List NFloat × Bool}
    (h : stepOnce m n d e x = .ok p) :
    ∃ y diff, matvec m n d x = .ok y ∧
      broadcast2 NFloat.sub (normalizeV y) x = .ok diff ∧
      p = (normalizeV y, NFloat.flt (norml2 diff) e) := by
  unfold stepOnce at h
  split at h
  · cases h
  · next y hy =>
    split at h
    · cases h
    · next diff hdiff =>
      cases h
      exact ⟨y, diff, hy, hdiff, rfl⟩

theorem stepOnce_err_of_len {m n : ℕ} {d : List NFloat} {e : NFloat}
    {x : List NFloat} (h : x.length ≠ n) :
    stepOnce m n d e x = .error .matmulShape := by
  unfold stepOnce
  rw [matvec_err_of_len h]

theorem loopGo_zero (m n : ℕ) (d : List NFloat) (e : NFloat) (x : List NFloat) :
    loopGo m n d e x 0 = .ok (x, 0) := rfl

theorem loopGo_succ_err {m n : ℕ} {d : List NFloat} {e : NFloat}
    {x : List NFloat} {er : NPError} (fuel : ℕ)
    (h : stepOnce m n d e x = .error er) :
    loopGo m n d e x (fuel + 1) = .error er := by
  unfold loopGo
  rw [h]

theorem loopGo_succ_brk {m n : ℕ} {d : List NFloat} {e : NFloat}
    {x x1 : List NFloat} (fuel : ℕ)
    (h : stepOnce m n d e x = .ok (x1, true)) :
    loopGo m n d e x (fuel + 1) = .ok (x1, 1) := by
  unfold loopGo
  rw [h]
  rfl

theorem loopGo_succ_cont {m n : ℕ} {d : List NFloat} {e : NFloat}
    {x x1 : List NFloat} (fuel : ℕ)
    (h : stepOnce m n d e x = .ok (x1, false)) :
    loopGo m n d e x (fuel + 1) =
      match loopGo m n d e x1 fuel with
      | .error er => .error er
      | .ok q => .ok (q.1, q.2 + 1) := by
  conv_lhs => unfold loopGo
  rw [h]
  rfl

theorem loopGo_badlen {m n : ℕ} {d : List NFloat} {e : NFloat}
    {x : List NFloat} (h : x.length ≠ n) (fuel : ℕ) :
    loopGo m n d e x fuel = .ok (x, 0) ∨
      loopGo m n d e x fuel = .error .matmulShape := by
  cases fuel with
  | zero => exact Or.inl rfl
  | succ f => exact Or.inr (loopGo_succ_err f (stepOnce_err_of_len h))

theorem extractEig_err_of_len {m n : ℕ} {d : List NFloat} {x : List NFloat}
    (h : x.length ≠ n) : extractEig m n d x = .error .matmulShape := by
  unfold extractEig
  rw [matvec_err_of_len h]

theorem extractEig_ok_inv {m n : ℕ} {d x : List NFloat} {lam : NFloat}
    (h : extractEig m n d x = .ok lam) :
    ∃ ax rs, matvec m n d x = .ok ax ∧
      broadcast2 NFloat.div ax x = .ok rs ∧ npMaxE rs = .ok lam := by
  unfold extractEig at h
  split at h
  · cases h
  · next ax hax =>
    split at h
    · cases h
    · next rs hrs => exact ⟨ax, rs, hax, hrs, h⟩

theorem pmCore_badlen {m n : ℕ} {d : List NFloat} {e : NFloat}
    {x : List NFloat} (h : x.length ≠ n) (it : ℕ) :
    pmCore m n d x e it = .error .matmulShape := by
  unfold pmCore
  rcases loopGo_badlen (e := e) (d := d) (m := m) h it with hl | hl
  · simp only [hl, extractEig_err_of_len h]
  · simp only [hl]

theorem pm_ok_inv {A : NDArray} {x0 : Option NDArray} {e : NFloat} {it : ℕ}
    {lam : NFloat} {xf : List NFloat}
    (h : power_method A x0 e it = .ok (lam, xf)) :
    A.shape.length = 2 ∧
      ∃ x0l c, resolveX0 (A.shape.getD 1 0) x0 = .ok x0l ∧
        loopGo A.shape.headI (A.shape.getD 1 0) A.data e x0l it = .ok (xf, c) ∧
        extractEig A.shape.headI (A.shape.getD 1 0) A.data xf = .ok lam := by
  unfold power_method at h
  split at h
  · next hs =>
    refine ⟨hs, ?_⟩
    split at h
    · cases h
    · next x0l hx0 =>
      unfold pmCore at h
      split at h
      · cases h
      · next q hl =>
        split at h
        · cases h
        · next lam1 he =>
          cases h
          exact ⟨x0l, q.2, hx0, hl, he⟩
  · cases h

theorem loopGo_count_le {m n : ℕ} {d : List NFloat} {e : NFloat} :
    ∀ (fuel : ℕ) (x xf : List NFloat) (c : ℕ),
      loopGo m n d e x fuel = .ok (xf, c) → c ≤ fuel := by
  intro fuel
  induction fuel with
  | zero =>
    intro x xf c h
    rw [loopGo_zero] at h
    cases h
    exact le_refl 0
  | succ f ih =>
    intro x xf c h
    unfold loopGo at h
    split at h
    · cases h
    · next p hp =>
      split at h
      · cases h
        exact Nat.le_add_left 1 f
      · split at h
        · cases h
        · next q hq =>
          cases h
          exact Nat.succ_le_succ (ih p.1 q.1 q.2 hq)

theorem loopGo_ok_normalized {m n : ℕ} {d : List NFloat} {e : NFloat} :
    ∀ (fuel : ℕ) (x xf : List NFloat) (c : ℕ), 1 ≤ fuel →
      loopGo m n d e x fuel = .ok (xf, c) →
      ∃ xp y, matvec m n d xp = .ok y ∧ xf = normalizeV y := by
  intro fuel
  induction fuel with
  | zero => intro x xf c h; omega
  | succ f ih =>
    intro x xf c _ h
    unfold loopGo at h
    split at h
    · cases h
    · next p hp =>
      obtain ⟨y, diff, hy, hdiff, hpeq⟩ := stepOnce_ok_inv hp
      split at h
      · cases h
        exact ⟨x, y, hy, by rw [hpeq]⟩
      · cases f with
        | zero =>
          rw [loopGo_zero] at h
          cases h
          exact ⟨x, y, hy, by rw [hpeq]⟩
        | succ f1 =>
          split at h
          · cases h
          · next q hq =>
            cases h
            exact ih p.1 q.1 q.2 (Nat.succ_le_succ (Nat.zero_le f1)) hq

theorem stepOnce_square {n : ℕ} {d : List NFloat} {e : NFloat}
    {x : List NFloat} (h : x.length = n) :
    stepOnce n n d e x =
      .ok (normalizeV ((chunkRows n n d).map (fun r => dot r x)),
        NFloat.flt
          (norml2 (List.zipWith NFloat.sub
            (normalizeV ((chunkRows n n d).map (fun r => dot r x))) x)) e) := by
  have hlen : (normalizeV ((chunkRows n n d).map (fun r => dot r x))).length
      = x.length := by
    simp [normalizeV, chunkRows, h]
  unfold stepOnce
  simp only [matvec_ok_of_len h]
  unfold broadcast2
  rw [if_pos hlen]

theorem loopGo_square_ok {n : ℕ} {d : List NFloat} {e : NFloat} :
    ∀ (fuel : ℕ) (x : List NFloat), x.length = n →
      ∃ xf c, loopGo n n d e x fuel = .ok (xf, c) ∧ xf.length = n := by
  intro fuel
  induction fuel with
  | zero => intro x h; exact ⟨x, 0, rfl, h⟩
  | succ f ih =>
    intro x h
    have hs := stepOnce_square (d := d) (e := e) h
    set x1 := normalizeV ((chunkRows n n d).map (fun r => dot r x)) with hx1
    have hx1len : x1.length = n := by
      rw [hx1]
      simp [normalizeV, chunkRows]
    cases hb : NFloat.flt
        (norml2 (List.zipWith NFloat.sub x1 x)) e with
    | true =>
      rw [hb] at hs
      exact ⟨x1, 1, loopGo_succ_brk f hs, hx1len⟩
    | false =>
      rw [hb] at hs
      obtain ⟨xf, c, hl, hlen⟩ := ih x1 hx1len
      refine ⟨xf, c + 1, ?_, hlen⟩
      rw [loopGo_succ_cont f hs, hl]

theorem broadcast2_eq_len {f : NFloat → NFloat → NFloat} {u v : List NFloat}
    (h : u.length = v.length) :
    broadcast2 f u v = .ok (List.zipWith f u v) := by
  simp [broadcast2, h]

theorem broadcast2_left_one {f : NFloat → NFloat → NFloat} {u v : List NFloat}
    (hne : u.length ≠ v.length) (h1 : u.length = 1) :
    broadcast2 f u v = .ok (v.map (fun b => f u.headI b)) := by
  have h2 : (1 : ℕ) ≠ v.length := by rw [← h1]; exact hne
  simp [broadcast2, hne, h1, h2]

theorem broadcast2_right_one {f : NFloat → NFloat → NFloat} {u v : List NFloat}
    (hne : u.length ≠ v.length) (h1 : u.length ≠ 1) (h2 : v.length = 1) :
    broadcast2 f u v = .ok (u.map (fun a => f a v.headI)) := by
  simp [broadcast2, hne, h1, h2]

theorem broadcast2_err {f : NFloat → NFloat → NFloat} {u v : List NFloat}
    (hne : u.length ≠ v.length) (h1 : u.length ≠ 1) (h2 : v.length ≠ 1) :
    broadcast2 f u v = .error .broadcastShape := by
  simp [broadcast2, hne, h1, h2]

theorem extractEig_square_ok {n : ℕ} {d : List NFloat} {x : List NFloat}
    (hx : x.length = n) (hn : 1 ≤ n) :
    ∃ lam, extractEig n n d x = .ok lam := by
  have hlen : ((chunkRows n n d).map (fun r => dot r x)).length = x.length := by
    simp [chunkRows, hx]
  unfold extractEig
  simp only [matvec_ok_of_len hx, broadcast2_eq_len hlen]
  have hne : (List.zipWith NFloat.div
      ((chunkRows n n d).map (fun r => dot r x)) x) ≠ [] := by
    have hl2 : (List.zipWith NFloat.div
        ((chunkRows n n d).map (fun r => dot r x)) x).length = n := by
      simp [chunkRows, hx]
    intro hcon
    rw [hcon] at hl2
    simp at hl2
    omega
  obtain ⟨a, t, ht⟩ := List.exists_cons_of_ne_nil hne
  rw [ht]
  exact ⟨t.foldl NFloat.max2 a, rfl⟩

theorem pm_square_ok {n : ℕ} {A : NDArray} {x0 : Option NDArray}
    {v : List NFloat} (e : NFloat) (it : ℕ)
    (hA : A.shape = [n, n]) (hn : 1 ≤ n) (hres : ResolvesTo n x0 v) :
    ∃ lam xf, power_method A x0 e it = .ok (lam, xf) := by
  obtain ⟨hv, hvlen⟩ := hres
  have hget : A.shape.getD 1 0 = n := by rw [hA]; rfl
  have hhead : A.shape.headI = n := by rw [hA]; rfl
  unfold power_method
  rw [if_pos (by rw [hA]; rfl), hget, hhead]
  simp only [hv]
  obtain ⟨xf, c, hl, hxflen⟩ := loopGo_square_ok (d := A.data) (e := e) it v hvlen
  obtain ⟨lam, hex⟩ := extractEig_square_ok (d := A.data) hxflen hn
  unfold pmCore
  simp only [hl, hex]
  exact ⟨lam, xf, rfl⟩

theorem pmCore_nonsquare {m n : ℕ} {d : List NFloat} {e : NFloat}
    {x : List NFloat} (hmn : m ≠ n) (hx : x.length = n) (it : ℕ) :
    ∃ er, pmCore m n d x e (it + 1) = .error er := by
  cases hstep : stepOnce m n d e x with
  | error er =>
    exact ⟨er, by unfold pmCore; simp only [loopGo_succ_err it hstep]⟩
  | ok p =>
    obtain ⟨y, diff, hy, hdiff, hpeq⟩ := stepOnce_ok_inv hstep
    have hylen : y.length = m := matvec_ok_length hy
    have hx1len : p.1.length = m := by rw [hpeq]; simp [normalizeV, hylen]
    have hx1bad : p.1.length ≠ n := by rw [hx1len]; exact hmn
    cases hb : p.2 with
    | true =>
      have hstep1 : stepOnce m n d e x = .ok (p.1, true) := by
        rw [hstep, ← hb]
      refine ⟨.matmulShape, ?_⟩
      unfold pmCore
      simp only [loopGo_succ_brk it hstep1, extractEig_err_of_len hx1bad]
    | false =>
      have hstep1 : stepOnce m n d e x = .ok (p.1, false) := by
        rw [hstep, ← hb]
      refine ⟨.matmulShape, ?_⟩
      unfold pmCore
      rw [loopGo_succ_cont it hstep1]
      rcases loopGo_badlen (e := e) (d := d) (m := m) hx1bad it with hl | hl
      · simp only [hl, extractEig_err_of_len hx1bad]
      · simp only [hl]


theorem realSumSq_nil : realSumSq [] = 0 := by simp [realSumSq]

theorem realSumSq_cons (a : NFloat) (t : List NFloat) :
    realSumSq (a :: t) = toRe a * toRe a + realSumSq t := by
  simp [realSumSq]

theorem realSumSq_nonneg (v : List NFloat) : 0 ≤ realSumSq v := by
  refine List.sum_nonneg ?_
  intro x hx
  obtain ⟨a, _, rfl⟩ := List.mem_map.mp hx
  exact mul_self_nonneg _

theorem sumsq_foldl_fin :
    ∀ (v : List NFloat) (r : ℝ), IsFinV v →
      (v.map (fun a => NFloat.mul a a)).foldl NFloat.add (NFloat.fin r) =
        NFloat.fin (r + realSumSq v) := by
  intro v
  induction v with
  | nil => intro r _; simp [realSumSq_nil]
  | cons a t ih =>
    intro r hfin
    obtain ⟨x, rfl⟩ := hfin a (List.mem_cons_self a t)
    have ht : IsFinV t := fun b hb => hfin b (List.mem_cons_of_mem _ hb)
    simp only [List.map_cons, List.foldl_cons, NFloat.mul_ff, NFloat.add_ff]
    rw [ih (r + x * x) ht, realSumSq_cons]
    simp [toRe]
    ring_nf

theorem sumsq_allfin {v : List NFloat} (h : IsFinV v) :
    sumsq v = NFloat.fin (realSumSq v) := by
  unfold sumsq
  rw [sumsq_foldl_fin v 0 h, zero_add]

theorem norml2_allfin {v : List NFloat} (h : IsFinV v) :
    norml2 v = NFloat.fin (Real.sqrt (realSumSq v)) := by
  unfold norml2
  rw [sumsq_allfin h, NFloat.sqrtN_f _ (realSumSq_nonneg v)]


theorem add_spec_left {a : NFloat} (h : IsSpec a) (b : NFloat) :
    IsSpec (NFloat.add a b) := by
  rcases h with h | h <;> subst h <;> cases b <;>
    simp [NFloat.add, IsSpec]

theorem add_spec_right {b : NFloat} (h : IsSpec b) (a : NFloat) :
    IsSpec (NFloat.add a b) := by
  rcases h with h | h <;> subst h <;> cases a <;>
    simp [NFloat.add, IsSpec]

theorem foldl_add_spec_acc :
    ∀ (l : List NFloat) (acc : NFloat), IsSpec acc →
      IsSpec (l.foldl NFloat.add acc) := by
  intro l
  induction l with
  | nil => intro acc h; exact h
  | cons a t ih => intro acc h; exact ih _ (add_spec_left h a)

theorem foldl_add_spec_mem :
    ∀ (l : List NFloat) (acc a : NFloat), a ∈ l → IsSpec a →
      IsSpec (l.foldl NFloat.add acc) := by
  intro l
  induction l with
  | nil => intro acc a h; cases h
  | cons b t ih =>
    intro acc a hmem hspec
    rcases List.mem_cons.mp hmem with rfl | hmem2
    · exact foldl_add_spec_acc t _ (add_spec_right hspec acc)
    · exact ih _ a hmem2 hspec

theorem mulself_spec {a : NFloat} (h : ∀ x, a ≠ NFloat.fin x) :
    IsSpec (NFloat.mul a a) := by
  cases a with
  | fin x => exact absurd rfl (h x)
  | posInf => exact Or.inl rfl
  | negInf => exact Or.inl rfl
  | nan => exact Or.inr rfl

theorem norml2_spec {y : List NFloat} {a : NFloat} (ha : a ∈ y)
    (h : ∀ x, a ≠ NFloat.fin x) : IsSpec (norml2 y) := by
  have hss : IsSpec (sumsq y) := by
    unfold sumsq
    exact foldl_add_spec_mem _ _ (NFloat.mul a a)
      (List.mem_map_of_mem _ ha) (mulself_spec h)
  unfold norml2
  rcases hss with hs | hs <;> rw [hs] <;>
    simp [NFloat.sqrtN, IsSpec]

theorem div_nonfin_spec {a b : NFloat} (ha : ∀ x, a ≠ NFloat.fin x)
    (hb : IsSpec b) : NFloat.div a b = NFloat.nan := by
  rcases hb with hb | hb <;> subst hb <;> cases a with
  | fin x => first | exact absurd rfl (ha x)
  | posInf => rfl
  | negInf => rfl
  | nan => rfl

theorem sum_sq_zero :
    ∀ (l : List ℝ), (∀ x ∈ l, 0 ≤ x) → l.sum = 0 → ∀ x ∈ l, x = 0 := by
  intro l
  induction l with
  | nil => intro _ _ x hx; cases hx
  | cons a t ih =>
    intro hnn hsum x hx
    have hta : 0 ≤ a := hnn a (List.mem_cons_self a t)
    have htt : 0 ≤ t.sum :=
      List.sum_nonneg (fun b hb => hnn b (List.mem_cons_of_mem _ hb))
    rw [List.sum_cons] at hsum
    have ha0 : a = 0 := by linarith
    have hts : t.sum = 0 := by linarith
    rcases List.mem_cons.mp hx with rfl | hx2
    · exact ha0
    · exact ih (fun b hb => hnn b (List.mem_cons_of_mem _ hb)) hts x hx2

theorem realSumSq_zero_each {v : List NFloat} (hfin : IsFinV v)
    (h : realSumSq v = 0) : ∀ a ∈ v, a = NFloat.fin 0 := by
  intro a ha
  obtain ⟨x, rfl⟩ := hfin a ha
  have hx : toRe (NFloat.fin x) * toRe (NFloat.fin x) = 0 := by
    refine sum_sq_zero _ ?_ h _ (List.mem_map_of_mem _ ha)
    intro b hb
    obtain ⟨c, _, rfl⟩ := List.mem_map.mp hb
    exact mul_self_nonneg _
  have hx0 : x = 0 := by
    have := mul_self_eq_zero.mp hx
    simpa [toRe] using this
  rw [hx0]

theorem realSumSq_map_divc {c : ℝ} (hc : c ≠ 0) :
    ∀ (v : List NFloat), IsFinV v →
      realSumSq (v.map (fun a => NFloat.div a (NFloat.fin c))) =
        realSumSq v / (c * c) := by
  intro v
  induction v with
  | nil => intro _; simp [realSumSq_nil]
  | cons a t ih =>
    intro hfin
    obtain ⟨x, rfl⟩ := hfin _ (List.mem_cons_self _ t)
    have ht : IsFinV t := fun b hb => hfin b (List.mem_cons_of_mem _ hb)
    simp only [List.map_cons]
    rw [realSumSq_cons, realSumSq_cons, ih ht, NFloat.div_ff _ _ hc]
    simp only [toRe]
    field_simp

/-- key fact behind the norm-1 property: whenever `y / ||y||` contains no
special value, its Euclidean norm is exactly 1 (the degenerate cases — a NaN
or infinity inside `y`, or `y = 0` — all plant a NaN in the normalized
vector instead). -/
theorem norml2_normalizeV_of_fin {y : List NFloat} (hy : y ≠ [])
    (hfin : IsFinV (normalizeV y)) : norml2 (normalizeV y) = NFloat.fin 1 := by
  by_cases hall : IsFinV y
  · have hs := realSumSq_nonneg y
    have hnorm : norml2 y = NFloat.fin (Real.sqrt (realSumSq y)) :=
      norml2_allfin hall
    by_cases h0 : realSumSq y = 0
    · exfalso
      obtain ⟨a, t, rfl⟩ := List.exists_cons_of_ne_nil hy
      have ha0 : a = NFloat.fin 0 :=
        realSumSq_zero_each hall h0 a (List.mem_cons_self a t)
      have hmem : NFloat.div a (norml2 (a :: t)) ∈ normalizeV (a :: t) :=
        List.mem_map_of_mem _ (List.mem_cons_self a t)
      have hdiv : NFloat.div a (norml2 (a :: t)) = NFloat.nan := by
        rw [hnorm, h0, Real.sqrt_zero, ha0, NFloat.div_zero_zero]
      obtain ⟨r, hr⟩ := hfin _ hmem
      rw [hdiv] at hr
      cases hr
    · have hpos : 0 < realSumSq y := lt_of_le_of_ne hs (Ne.symm h0)
      have hsqpos : 0 < Real.sqrt (realSumSq y) := Real.sqrt_pos.mpr hpos
      have hrw : normalizeV y =
          y.map (fun a => NFloat.div a (NFloat.fin (Real.sqrt (realSumSq y)))) := by
        unfold normalizeV
        rw [hnorm]
      have hval : realSumSq (normalizeV y) = 1 := by
        rw [hrw, realSumSq_map_divc hsqpos.ne' y hall,
          Real.mul_self_sqrt hs, div_self h0]
      rw [norml2_allfin hfin, hval, Real.sqrt_one]
  · exfalso
    have hex : ∃ a ∈ y, ¬ ∃ r, a = NFloat.fin r := by
      by_contra hcon
      push_neg at hcon
      exact hall (fun a ha => hcon a ha)
    obtain ⟨a, ha, hane⟩ := hex
    have hane2 : ∀ x, a ≠ NFloat.fin x := by
      intro x hx
      exact hane ⟨x, hx⟩
    have hspec : IsSpec (norml2 y) := norml2_spec ha hane2
    have hdiv : NFloat.div a (norml2 y) = NFloat.nan :=
      div_nonfin_spec hane2 hspec
    have hmem : NFloat.div a (norml2 y) ∈ normalizeV y :=
      List.mem_map_of_mem _ ha
    obtain ⟨r, hr⟩ := hfin _ hmem
    rw [hdiv] at hr
    cases hr

theorem prod_filter_ne_one (l : List ℕ) :
    (l.filter (fun d => decide (d ≠ 1))).prod = l.prod := by
  induction l with
  | nil => rfl
  | cons a t ih =>
    rw [List.filter_cons]
    by_cases ha : a = 1
    · subst ha
      rw [if_neg (by simp), ih, List.prod_cons, one_mul]
    · rw [if_pos (by simp [ha]), List.prod_cons, List.prod_cons, ih]

theorem validateX0_ok_iff (arr : NDArray) :
    validateX0 arr = .ok arr.data ↔
      (arr.shape.filter (fun d => decide (d ≠ 1))).length = 1 := by
  unfold validateX0
  constructor
  · intro h
    by_cases hc : (squeeze arr).shape.length = 1
    · simpa [squeeze] using hc
    · rw [if_neg hc] at h
      cases h
  · intro h
    have hc : (squeeze arr).shape.length = 1 := by simpa [squeeze] using h
    rw [if_pos hc]
    rfl


theorem validateX0_err_iff (arr : NDArray) :
    (∃ er, validateX0 arr = .error er) ↔
      (arr.shape.filter (fun d => decide (d ≠ 1))).length ≠ 1 := by
  unfold validateX0
  by_cases hc : (squeeze arr).shape.length = 1
  · rw [if_pos hc]
    simp [squeeze] at hc
    simp [hc]
  · rw [if_neg hc]
    simp [squeeze] at hc
    simp [hc]

/-- C7: the only validation errors `power_method` raises are the two shape
errors, and they are raised uniformly in `eps` and `max_iter` — i.e. before
any iteration, matrix-vector product or normalization is attempted: a
non-2-D `A` always yields the `A`-shape error (whatever `x0` is), and, once
`A` is 2-D, a supplied `x0` whose squeeze is not exactly 1-D always yields
the `x0`-shape error.  Confirmed as stated. -/
theorem c7_validation_first :
    (∀ (A : NDArray) (x0 : Option NDArray) (e : NFloat) (it : ℕ),
      A.shape.length ≠ 2 → power_method A x0 e it = .error .aNotTwoD) ∧
    (∀ (A : NDArray) (arr : NDArray) (e : NFloat) (it : ℕ),
      A.shape.length = 2 → (squeeze arr).shape.length ≠ 1 →
      power_method A (some arr) e it = .error .x0Shape) := by
  constructor
  · intro A x0 e it h
    unfold power_method
    rw [if_neg h]
  · intro A arr e it h2 hsq
    unfold power_method
    rw [if_pos h2]
    have hv : resolveX0 (A.shape.getD 1 0) (some arr) = .error .x0Shape := by
      show validateX0 arr = .error .x0Shape
      unfold validateX0
      rw [if_neg hsq]
    simp only [hv]

/-- C7 witness: both validation errors at concrete inputs — a 1-D `A` is
rejected with the `A` shape error, and a `(1, 1)`-shaped `x0` (which
squeezes to 0-D) is rejected with the `x0` shape error. -/
theorem c7_validation_first_witness :
    power_method ⟨[3], [NFloat.fin 1, NFloat.fin 1, NFloat.fin 1]⟩ none
        (NFloat.fin 1) 5 = .error .aNotTwoD ∧
    power_method ⟨[2, 2], [NFloat.fin 1, NFloat.fin 0, NFloat.fin 0, NFloat.fin 1]⟩
        (some ⟨[1, 1], [NFloat.fin 1]⟩) (NFloat.fin 1) 5 = .error .x0Shape := by
  constructor
  · exact c7_validation_first.1 _ none _ 5 (by simp)
  · exact c7_validation_first.2 _ _ _ 5 (by simp) (by decide)

/-- C10: the `x0` shape validation accepts exactly the arrays whose shape has
precisely one non-singleton axis (so also `(1, n)`, `(n, 1, 1)`, ... beyond
the documented `(n,)` and `(n, 1)`), squeezing them to their flat data of
length equal to that axis; an array that squeezes to zero dimensions (all
axes singleton) is rejected with the shape error.  Confirmed as stated. -/
theorem c10_squeeze_validation (arr : NDArray) :
    (validateX0 arr = .ok arr.data ↔
      (arr.shape.filter (fun d => decide (d ≠ 1))).length = 1) ∧
    ((arr.shape.filter (fun d => decide (d ≠ 1))).length = 0 →
      validateX0 arr = .error .x0Shape) ∧
    (∀ k : ℕ, WF arr → arr.shape.filter (fun d => decide (d ≠ 1)) = [k] →
      arr.data.length = k) := by
  refine ⟨validateX0_ok_iff arr, ?_, ?_⟩
  · intro h0
    have hc : ¬ (squeeze arr).shape.length = 1 := by
      show ¬ (arr.shape.filter (fun d => decide (d ≠ 1))).length = 1
      rw [h0]
      omega
    unfold validateX0
    rw [if_neg hc]
  · intro k hwf hfil
    have hp : arr.shape.prod = k := by
      rw [← prod_filter_ne_one arr.shape, hfil]
      simp
    rw [hwf, hp]

/-- C10 witness: a shape `(3, 1, 1)` array is accepted and squeezed to its
flat data of length 3; a shape `(1, 1)` array squeezes to 0-D and is
rejected; the accepted array's data length is its non-singleton extent. -/
theorem c10_squeeze_validation_witness :
    validateX0 ⟨[3, 1, 1], [NFloat.fin 1, NFloat.fin 2, NFloat.fin 3]⟩ =
      .ok [NFloat.fin 1, NFloat.fin 2, NFloat.fin 3] ∧
    validateX0 ⟨[1, 1], [NFloat.fin 5]⟩ = .error .x0Shape ∧
    (⟨[3, 1, 1], [NFloat.fin 1, NFloat.fin 2, NFloat.fin 3]⟩ : NDArray).data.length = 3 := by
  refine ⟨?_, ?_, ?_⟩
  · exact (c10_squeeze_validation ⟨[3, 1, 1],
      [NFloat.fin 1, NFloat.fin 2, NFloat.fin 3]⟩).1.mpr (by decide)
  · exact (c10_squeeze_validation ⟨[1, 1], [NFloat.fin 5]⟩).2.1 (by decide)
  · exact (c10_squeeze_validation ⟨[3, 1, 1],
      [NFloat.fin 1, NFloat.fin 2, NFloat.fin 3]⟩).2.2 3 (by rfl) (by decide)

/-- C4: for a square `n x n` matrix and a supplied `x0` that squeezes to a
1-D vector of length `k ≠ n`, `power_method` fails with the matmul shape
`ValueError` (raised at the first `A @ x`, whatever `eps` and `max_iter`).
Confirmed as stated. -/
theorem c4_x0_length_mismatch (n : ℕ) (A : NDArray) (arr : NDArray)
    (e : NFloat) (it : ℕ) (k : ℕ)
    (hA : A.shape = [n, n]) (hwf : WF arr)
    (hsq : (squeeze arr).shape = [k]) (hk : k ≠ n) :
    power_method A (some arr) e it = .error .matmulShape := by
  have hget : A.shape.getD 1 0 = n := by rw [hA]; rfl
  unfold power_method
  rw [if_pos (by rw [hA]; rfl), hget]
  have hv : resolveX0 n (some arr) = .ok arr.data := by
    show validateX0 arr = .ok arr.data
    unfold validateX0
    rw [if_pos (by rw [show (squeeze arr).shape = [k] from hsq]; rfl)]
    rfl
  simp only [hv]
  have hlen : arr.data.length = k := by
    rw [hwf, ← prod_filter_ne_one arr.shape,
      show arr.shape.filter (fun d => decide (d ≠ 1)) = [k] from hsq]
    simp
  exact pmCore_badlen (by rw [hlen]; exact hk) it

/-- C4 witness: a 2x2 identity with a length-3 `x0` fails with the matmul
shape error. -/
theorem c4_x0_length_mismatch_witness :
    power_method ⟨[2, 2], [NFloat.fin 1, NFloat.fin 0, NFloat.fin 0, NFloat.fin 1]⟩
      (some ⟨[3], [NFloat.fin 1, NFloat.fin 1, NFloat.fin 1]⟩)
      (NFloat.fin 1) 4 = .error .matmulShape :=
  c4_x0_length_mismatch 2 _ _ _ 4 3 rfl (by rfl) (by decide) (by decide)

/-- C3: for every 2-D matrix whose two extents differ, `power_method` fails
with one of the shape `ValueError`s (the `x0` validation error, a matmul
dimension mismatch, or a broadcast mismatch), whatever `x0` and `eps`, for
any positive iteration cap (the spec's input domain).  Confirmed: the check
is not performed up front, but every such call ends in a shape error. -/
theorem c3_nonsquare_error (m n : ℕ) (A : NDArray) (x0 : Option NDArray)
    (e : NFloat) (it : ℕ) (hA : A.shape = [m, n]) (hmn : m ≠ n) (hit : 1 ≤ it) :
    ∃ er, power_method A x0 e it = .error er := by
  have hget : A.shape.getD 1 0 = n := by rw [hA]; rfl
  have hhead : A.shape.headI = m := by rw [hA]; rfl
  unfold power_method
  rw [if_pos (by rw [hA]; rfl), hget, hhead]
  cases hr : resolveX0 n x0 with
  | error er =>
    simp only [hr]
    exact ⟨er, rfl⟩
  | ok x0l =>
    simp only [hr]
    by_cases hlen : x0l.length = n
    · obtain ⟨it1, rfl⟩ : ∃ it1, it = it1 + 1 := ⟨it - 1, by omega⟩
      exact pmCore_nonsquare hmn hlen it1
    · exact ⟨.matmulShape, pmCore_badlen hlen it⟩

/-- C3 witness: a 1x2 matrix (passing the 2-D check) with the default `x0`
ends in a shape error. -/
theorem c3_nonsquare_error_witness :
    isErrE (power_method ⟨[1, 2], [NFloat.fin 1, NFloat.fin 1]⟩ none
      (NFloat.fin 1) 3) = true := by
  obtain ⟨er, her⟩ := c3_nonsquare_error 1 2 ⟨[1, 2], [NFloat.fin 1, NFloat.fin 1]⟩
    none (NFloat.fin 1) 3 rfl (by omega) (by omega)
  rw [her]
  rfl

/-- C1 (amended): whenever `power_method` returns a pair `(lam, x)`, the
eigenvalue `lam` is the result of `extractEig` on the FINAL vector `x` — a
fresh matrix-vector product `A @ x` (with the post-update iterate, not the
loop's cached product), divided elementwise by `x` over ALL components
(a zero component follows IEEE division, planting `inf`/`nan`), then the
NaN-propagating maximum.  The claim's restriction of the maximum to the
components where `x[i] ≠ 0` is what fails (see the counterexample). -/
theorem c1_eig_from_final_product (A : NDArray) (x0 : Option NDArray)
    (e : NFloat) (it : ℕ) (lam : NFloat) (xf : List NFloat)
    (h : power_method A x0 e it = .ok (lam, xf)) :
    extractEig A.shape.headI (A.shape.getD 1 0) A.data xf = .ok lam := by
  obtain ⟨-, -, -, -, -, hex⟩ := pm_ok_inv h
  exact hex

/-- C5 (amended): the loop body executes at most `max_iter` times; it stops
at the first iteration whose error is below `eps`; and for a SQUARE matrix
with a matching resolved `x0`, exhausting `max_iter` is not an error — a
pair is still returned with no convergence signal.  (The claim's stronger
assertion — that EVERY input passing shape validation returns a pair after
exhaustion — is refuted by the counterexample.) -/
theorem c5_loop_bounds :
    (∀ (m n : ℕ) (d : List NFloat) (e : NFloat) (fuel : ℕ)
        (x xf : List NFloat) (c : ℕ),
      loopGo m n d e x fuel = .ok (xf, c) → c ≤ fuel) ∧
    (∀ (m n : ℕ) (d : List NFloat) (e : NFloat) (fuel : ℕ) (x x1 : List NFloat),
      stepOnce m n d e x = .ok (x1, true) →
      loopGo m n d e x (fuel + 1) = .ok (x1, 1)) ∧
    (∀ (n : ℕ) (A : NDArray) (x0 : Option NDArray) (v : List NFloat)
        (e : NFloat) (it : ℕ),
      A.shape = [n, n] → 1 ≤ n → ResolvesTo n x0 v →
      ∃ lam xf, power_method A x0 e it = .ok (lam, xf)) :=
  ⟨fun m n d e fuel x xf c h => loopGo_count_le fuel x xf c h,
   fun _ _ _ _ fuel _ _ h => loopGo_succ_brk fuel h,
   fun _ _ _ _ e it hA hn hres => pm_square_ok e it hA hn hres⟩

theorem range_one_eq : List.range 1 = [0] := rfl

theorem range_two_eq : List.range 2 = [0, 1] := rfl

theorem norml2_single (a : ℝ) :
    norml2 [NFloat.fin a] = NFloat.fin (Real.sqrt (a * a)) := by
  have h : sumsq [NFloat.fin a] = NFloat.fin (a * a) := by
    norm_num [sumsq, NFloat.mul_ff, NFloat.add_ff]
  rw [norml2, h, NFloat.sqrtN_f _ (mul_self_nonneg a)]

theorem norml2_pair (a b : ℝ) :
    norml2 [NFloat.fin a, NFloat.fin b] =
      NFloat.fin (Real.sqrt (a * a + b * b)) := by
  have h : sumsq [NFloat.fin a, NFloat.fin b] = NFloat.fin (a * a + b * b) := by
    norm_num [sumsq, NFloat.mul_ff, NFloat.add_ff]
  rw [norml2, h, NFloat.sqrtN_f _ (add_nonneg (mul_self_nonneg a) (mul_self_nonneg b))]

theorem norml2_nan_single : norml2 [NFloat.nan] = NFloat.nan := rfl

theorem ev_pos1_mv (a : ℝ) :
    matvec 1 1 [NFloat.fin a] [NFloat.fin 1] = .ok [NFloat.fin a] := by
  rw [matvec_ok_of_len (show ([NFloat.fin 1] : List NFloat).length = 1 from rfl)]
  norm_num [chunkRows, range_one_eq, dot, NFloat.mul_ff, NFloat.add_ff]

theorem ev_pos1_step (a : ℝ) (ha : 0 < a) (epsr : ℝ) (he : 0 < epsr) :
    stepOnce 1 1 [NFloat.fin a] (NFloat.fin epsr) [NFloat.fin 1] =
      .ok ([NFloat.fin 1], true) := by
  have hnorm : norml2 [NFloat.fin a] = NFloat.fin a := by
    rw [norml2_single, Real.sqrt_mul_self ha.le]
  have hnv : normalizeV [NFloat.fin a] = [NFloat.fin 1] := by
    unfold normalizeV
    rw [hnorm]
    simp only [List.map_cons, List.map_nil]
    rw [NFloat.div_ff a a ha.ne']
    norm_num [div_self ha.ne']
  unfold stepOnce
  simp only [ev_pos1_mv a]
  rw [hnv]
  simp only [broadcast2_eq_len (by rfl :
    ([NFloat.fin 1] : List NFloat).length = ([NFloat.fin 1] : List NFloat).length)]
  have hdiff : List.zipWith NFloat.sub [NFloat.fin 1] [NFloat.fin 1] =
      [NFloat.fin 0] := by
    norm_num [NFloat.sub_ff]
  rw [hdiff]
  have hn0 : norml2 [NFloat.fin 0] = NFloat.fin 0 := by
    rw [norml2_single, Real.sqrt_mul_self le_rfl]
  rw [hn0, NFloat.flt_ff_true he]

theorem ev_pos1_extract (a : ℝ) :
    extractEig 1 1 [NFloat.fin a] [NFloat.fin 1] = .ok (NFloat.fin a) := by
  unfold extractEig
  simp only [ev_pos1_mv a]
  simp only [broadcast2_eq_len (by rfl :
    ([NFloat.fin a] : List NFloat).length = ([NFloat.fin 1] : List NFloat).length)]
  have hz : List.zipWith NFloat.div [NFloat.fin a] [NFloat.fin 1] =
      [NFloat.fin a] := by
    norm_num [NFloat.div_ff a 1 one_ne_zero]
  rw [hz]
  rfl

/-- the full run of `power_method` on the 1x1 matrix `[[a]]` with `a > 0`,
defaulted `x0` and positive `eps`: converges on the first iteration and
returns `(a, [1])`. -/
theorem ev_run_pos1 (a : ℝ) (ha : 0 < a) (epsr : ℝ) (he : 0 < epsr) (it : ℕ) :
    power_method ⟨[1, 1], [NFloat.fin a]⟩ none (NFloat.fin epsr) (it + 1) =
      .ok (NFloat.fin a, [NFloat.fin 1]) := by
  unfold power_method
  rw [if_pos (show (⟨[1, 1], [NFloat.fin a]⟩ : NDArray).shape.length = 2 from rfl)]
  have hres : resolveX0 ((⟨[1, 1], [NFloat.fin a]⟩ : NDArray).shape.getD 1 0)
      none = .ok [NFloat.fin 1] := rfl
  simp only [hres]
  show pmCore 1 1 [NFloat.fin a] [NFloat.fin 1] (NFloat.fin epsr) (it + 1) =
    .ok (NFloat.fin a, [NFloat.fin 1])
  unfold pmCore
  simp only [loopGo_succ_brk it (ev_pos1_step a ha epsr he)]
  simp only [ev_pos1_extract a]

theorem ev_zero1_mv : matvec 1 1 [NFloat.fin 0] [NFloat.fin 1] =
    .ok [NFloat.fin 0] := by
  rw [matvec_ok_of_len (show ([NFloat.fin 1] : List NFloat).length = 1 from rfl)]
  norm_num [chunkRows, range_one_eq, dot, NFloat.mul_ff, NFloat.add_ff]

theorem ev_zero1_step0 (epsr : NFloat) :
    stepOnce 1 1 [NFloat.fin 0] epsr [NFloat.fin 1] =
      .ok ([NFloat.nan], false) := by
  have hn : norml2 [NFloat.fin 0] = NFloat.fin 0 := by
    rw [norml2_single, Real.sqrt_mul_self le_rfl]
  have hnv : normalizeV [NFloat.fin 0] = [NFloat.nan] := by
    unfold normalizeV
    rw [hn]
    simp only [List.map_cons, List.map_nil]
    rw [NFloat.div_zero_zero]
  unfold stepOnce
  simp only [ev_zero1_mv]
  rw [hnv]
  simp only [broadcast2_eq_len (by rfl :
    ([NFloat.nan] : List NFloat).length = ([NFloat.fin 1] : List NFloat).length)]
  rfl

theorem ev_zero1_stepnan (epsr : NFloat) :
    stepOnce 1 1 [NFloat.fin 0] epsr [NFloat.nan] =
      .ok ([NFloat.nan], false) := rfl

theorem ev_zero1_loopnan (epsr : NFloat) :
    ∀ fuel : ℕ, loopGo 1 1 [NFloat.fin 0] epsr [NFloat.nan] fuel =
      .ok ([NFloat.nan], fuel) := by
  intro fuel
  induction fuel with
  | zero => rfl
  | succ f ih =>
    rw [loopGo_succ_cont f (ev_zero1_stepnan epsr), ih]

/-- the full run of `power_method` on the 1x1 zero matrix with defaulted
`x0`: the first product is the zero vector, its norm is 0, the division
0/0 yields NaN, the NaN never satisfies `error < eps`, the loop exhausts
`max_iter`, and the returned pair is `(nan, [nan])` — no exception. -/
theorem ev_run_zero1 (epsr : NFloat) (it : ℕ) :
    power_method ⟨[1, 1], [NFloat.fin 0]⟩ none epsr (it + 1) =
      .ok (NFloat.nan, [NFloat.nan]) := by
  unfold power_method
  rw [if_pos (show (⟨[1, 1], [NFloat.fin 0]⟩ : NDArray).shape.length = 2 from rfl)]
  have hres : resolveX0 ((⟨[1, 1], [NFloat.fin 0]⟩ : NDArray).shape.getD 1 0)
      none = .ok [NFloat.fin 1] := rfl
  simp only [hres]
  show pmCore 1 1 [NFloat.fin 0] [NFloat.fin 1] epsr (it + 1) =
    .ok (NFloat.nan, [NFloat.nan])
  unfold pmCore
  rw [loopGo_succ_cont it (ev_zero1_step0 epsr)]
  simp only [ev_zero1_loopnan epsr it]
  have hex : extractEig 1 1 [NFloat.fin 0] [NFloat.nan] = .ok NFloat.nan := rfl
  simp only [hex]

theorem ev_mv2 (a b c dd p q : ℝ) :
    matvec 2 2 [NFloat.fin a, NFloat.fin b, NFloat.fin c, NFloat.fin dd]
      [NFloat.fin p, NFloat.fin q] =
      .ok [NFloat.fin (a * p + b * q), NFloat.fin (c * p + dd * q)] := by
  rw [matvec_ok_of_len (show ([NFloat.fin p, NFloat.fin q] :
    List NFloat).length = 2 from rfl)]
  norm_num [chunkRows, range_two_eq, dot, NFloat.mul_ff, NFloat.add_ff]

theorem ev_diag_mv :
    matvec 2 2 [NFloat.fin 2, NFloat.fin 0, NFloat.fin 0, NFloat.fin 1]
      [NFloat.fin 1, NFloat.fin 0] = .ok [NFloat.fin 2, NFloat.fin 0] := by
  rw [ev_mv2]
  norm_num

theorem ev_diag_norm : norml2 [NFloat.fin 2, NFloat.fin 0] = NFloat.fin 2 := by
  rw [norml2_pair]
  norm_num [sqrt_four]

theorem ev_diag_normalize :
    normalizeV [NFloat.fin 2, NFloat.fin 0] = [NFloat.fin 1, NFloat.fin 0] := by
  unfold normalizeV
  rw [ev_diag_norm]
  simp only [List.map_cons, List.map_nil]
  rw [NFloat.div_ff 2 2 two_ne_zero, NFloat.div_ff 0 2 two_ne_zero]
  norm_num

theorem ev_zero_pair_norm : norml2 [NFloat.fin 0, NFloat.fin 0] = NFloat.fin 0 := by
  rw [norml2_pair]
  norm_num

theorem ev_diag_step {epsr : ℝ} (he : 0 < epsr) :
    stepOnce 2 2 [NFloat.fin 2, NFloat.fin 0, NFloat.fin 0, NFloat.fin 1]
      (NFloat.fin epsr) [NFloat.fin 1, NFloat.fin 0] =
      .ok ([NFloat.fin 1, NFloat.fin 0], true) := by
  unfold stepOnce
  simp only [ev_diag_mv]
  rw [ev_diag_normalize]
  simp only [broadcast2_eq_len (by rfl :
    ([NFloat.fin 1, NFloat.fin 0] : List NFloat).length =
    ([NFloat.fin 1, NFloat.fin 0] : List NFloat).length)]
  have hdiff : List.zipWith NFloat.sub [NFloat.fin 1, NFloat.fin 0]
      [NFloat.fin 1, NFloat.fin 0] = [NFloat.fin 0, NFloat.fin 0] := by
    norm_num [NFloat.sub_ff]
  rw [hdiff, ev_zero_pair_norm, NFloat.flt_ff_true he]

theorem ev_diag_extract :
    extractEig 2 2 [NFloat.fin 2, NFloat.fin 0, NFloat.fin 0, NFloat.fin 1]
      [NFloat.fin 1, NFloat.fin 0] = .ok NFloat.nan := by
  unfold extractEig
  simp only [ev_diag_mv]
  simp only [broadcast2_eq_len (by rfl :
    ([NFloat.fin 2, NFloat.fin 0] : List NFloat).length =
    ([NFloat.fin 1, NFloat.fin 0] : List NFloat).length)]
  have hz : List.zipWith NFloat.div [NFloat.fin 2, NFloat.fin 0]
      [NFloat.fin 1, NFloat.fin 0] = [NFloat.fin 2, NFloat.nan] := by
    simp only [List.zipWith]
    rw [NFloat.div_ff 2 1 one_ne_zero, NFloat.div_zero_zero]
    norm_num
  rw [hz]
  rfl

/-- the full run of `power_method` on `A = [[2, 0], [0, 1]]` with
`x0 = [1, 0]` (an exact unit eigenvector): the loop converges immediately
(error 0), and the eigenvalue extraction divides by the zero component,
planting a NaN that `np.max` propagates — the returned eigenvalue is NaN. -/
theorem ev_run_diag {epsr : ℝ} (he : 0 < epsr) (it : ℕ) :
    power_method ⟨[2, 2], [NFloat.fin 2, NFloat.fin 0, NFloat.fin 0, NFloat.fin 1]⟩
      (some ⟨[2], [NFloat.fin 1, NFloat.fin 0]⟩) (NFloat.fin epsr) (it + 1) =
      .ok (NFloat.nan, [NFloat.fin 1, NFloat.fin 0]) := by
  unfold power_method
  rw [if_pos (show (⟨[2, 2], [NFloat.fin 2, NFloat.fin 0, NFloat.fin 0,
    NFloat.fin 1]⟩ : NDArray).shape.length = 2 from rfl)]
  have hres : resolveX0 2 (some ⟨[2], [NFloat.fin 1, NFloat.fin 0]⟩) =
      .ok [NFloat.fin 1, NFloat.fin 0] := rfl
  simp only [hres]
  show pmCore 2 2 [NFloat.fin 2, NFloat.fin 0, NFloat.fin 0, NFloat.fin 1]
    [NFloat.fin 1, NFloat.fin 0] (NFloat.fin epsr) (it + 1) =
    .ok (NFloat.nan, [NFloat.fin 1, NFloat.fin 0])
  unfold pmCore
  simp only [loopGo_succ_brk it (ev_diag_step he)]
  simp only [ev_diag_extract]

/-- the spec's restricted maximum on the same final data: dropping the zero
component leaves only the ratio 2/1, so the spec's formula says 2. -/
theorem ev_diag_specmax :
    specEigMax [NFloat.fin 2, NFloat.fin 0] [NFloat.fin 1, NFloat.fin 0] =
      .ok (NFloat.fin 2) := by
  have h1 : NFloat.isZeroF (NFloat.fin 1) = false := by
    simp [NFloat.isZeroF]
  have h0 : NFloat.isZeroF (NFloat.fin 0) = true := by
    simp [NFloat.isZeroF]
  unfold specEigMax
  simp only [List.zip, List.zipWith, List.filterMap, h1, h0]
  rw [NFloat.div_ff 2 1 one_ne_zero]
  norm_num [npMaxE]

theorem ev_osc_mv1 :
    matvec 2 2 [NFloat.fin 0, NFloat.fin 1, NFloat.fin 1, NFloat.fin 0]
      [NFloat.fin 1, NFloat.fin 0] = .ok [NFloat.fin 0, NFloat.fin 1] := by
  rw [ev_mv2]
  norm_num

theorem ev_osc_mv2 :
    matvec 2 2 [NFloat.fin 0, NFloat.fin 1, NFloat.fin 1, NFloat.fin 0]
      [NFloat.fin 0, NFloat.fin 1] = .ok [NFloat.fin 1, NFloat.fin 0] := by
  rw [ev_mv2]
  norm_num

theorem ev_osc_step :
    stepOnce 2 2 [NFloat.fin 0, NFloat.fin 1, NFloat.fin 1, NFloat.fin 0]
      (NFloat.fin (1 / 2)) [NFloat.fin 1, NFloat.fin 0] =
      .ok ([NFloat.fin 0, NFloat.fin 1], false) := by
  have hnorm : norml2 [NFloat.fin 0, NFloat.fin 1] = NFloat.fin 1 := by
    rw [norml2_pair]
    norm_num [Real.sqrt_one]
  have hnv : normalizeV [NFloat.fin 0, NFloat.fin 1] =
      [NFloat.fin 0, NFloat.fin 1] := by
    unfold normalizeV
    rw [hnorm]
    simp only [List.map_cons, List.map_nil]
    rw [NFloat.div_ff 0 1 one_ne_zero, NFloat.div_ff 1 1 one_ne_zero]
    norm_num
  unfold stepOnce
  simp only [ev_osc_mv1]
  rw [hnv]
  simp only [broadcast2_eq_len (by rfl :
    ([NFloat.fin 0, NFloat.fin 1] : List NFloat).length =
    ([NFloat.fin 1, NFloat.fin 0] : List NFloat).length)]
  have hdiff : List.zipWith NFloat.sub [NFloat.fin 0, NFloat.fin 1]
      [NFloat.fin 1, NFloat.fin 0] = [NFloat.fin (-1), NFloat.fin 1] := by
    norm_num [NFloat.sub_ff]
  have hnd : norml2 [NFloat.fin (-1), NFloat.fin 1] =
      NFloat.fin (Real.sqrt 2) := by
    rw [norml2_pair]
    norm_num
  have hflt : NFloat.flt (NFloat.fin (Real.sqrt 2)) (NFloat.fin (1 / 2)) =
      false := by
    refine NFloat.flt_ff_false ?_
    have := one_le_sqrt_two
    linarith
  rw [hdiff, hnd, hflt]

theorem ev_osc_extract :
    extractEig 2 2 [NFloat.fin 0, NFloat.fin 1, NFloat.fin 1, NFloat.fin 0]
      [NFloat.fin 0, NFloat.fin 1] = .ok NFloat.posInf := by
  unfold extractEig
  simp only [ev_osc_mv2]
  simp only [broadcast2_eq_len (by rfl :
    ([NFloat.fin 1, NFloat.fin 0] : List NFloat).length =
    ([NFloat.fin 0, NFloat.fin 1] : List NFloat).length)]
  have hz : List.zipWith NFloat.div [NFloat.fin 1, NFloat.fin 0]
      [NFloat.fin 0, NFloat.fin 1] = [NFloat.posInf, NFloat.fin 0] := by
    simp only [List.zipWith]
    rw [NFloat.div_f0_pos 1 one_pos, NFloat.div_ff 0 1 one_ne_zero]
    norm_num
  rw [hz]
  rfl

/-- the full run of `power_method` on the swap matrix `[[0, 1], [1, 0]]`
with `x0 = [1, 0]` and `max_iter = 1`: the loop does not converge, the cap
is exhausted, and the extraction hits the zero component `x[0] = 0` with
`(A x)[0] = 1`, so the IEEE quotient `1/0 = +inf` propagates into the
returned eigenvalue — still no exception. -/
theorem ev_run_osc :
    power_method ⟨[2, 2], [NFloat.fin 0, NFloat.fin 1, NFloat.fin 1, NFloat.fin 0]⟩
      (some ⟨[2], [NFloat.fin 1, NFloat.fin 0]⟩) (NFloat.fin (1 / 2)) 1 =
      .ok (NFloat.posInf, [NFloat.fin 0, NFloat.fin 1]) := by
  unfold power_method
  rw [if_pos (show (⟨[2, 2], [NFloat.fin 0, NFloat.fin 1, NFloat.fin 1,
    NFloat.fin 0]⟩ : NDArray).shape.length = 2 from rfl)]
  have hres : resolveX0 2 (some ⟨[2], [NFloat.fin 1, NFloat.fin 0]⟩) =
      .ok [NFloat.fin 1, NFloat.fin 0] := rfl
  simp only [hres]
  show pmCore 2 2 [NFloat.fin 0, NFloat.fin 1, NFloat.fin 1, NFloat.fin 0]
    [NFloat.fin 1, NFloat.fin 0] (NFloat.fin (1 / 2)) 1 =
    .ok (NFloat.posInf, [NFloat.fin 0, NFloat.fin 1])
  unfold pmCore
  rw [loopGo_succ_cont 0 ev_osc_step]
  simp only [loopGo_zero]
  simp only [ev_osc_extract]

theorem ev_idem_mv :
    matvec 2 2 [NFloat.fin 1, NFloat.fin 0, NFloat.fin 0, NFloat.fin 1]
      [NFloat.fin (3 / 5), NFloat.fin (4 / 5)] =
      .ok [NFloat.fin (3 / 5), NFloat.fin (4 / 5)] := by
  rw [ev_mv2]
  norm_num

theorem ev_idem_step :
    stepOnce 2 2 [NFloat.fin 1, NFloat.fin 0, NFloat.fin 0, NFloat.fin 1]
      (NFloat.fin (1 / 2)) [NFloat.fin (3 / 5), NFloat.fin (4 / 5)] =
      .ok ([NFloat.fin (3 / 5), NFloat.fin (4 / 5)], true) := by
  have hnorm : norml2 [NFloat.fin (3 / 5), NFloat.fin (4 / 5)] =
      NFloat.fin 1 := by
    rw [norml2_pair]
    norm_num [show (3 / 5 : ℝ) * (3 / 5) + 4 / 5 * (4 / 5) = 1 by norm_num,
      Real.sqrt_one]
  have hnv : normalizeV [NFloat.fin (3 / 5), NFloat.fin (4 / 5)] =
      [NFloat.fin (3 / 5), NFloat.fin (4 / 5)] := by
    unfold normalizeV
    rw [hnorm]
    simp only [List.map_cons, List.map_nil]
    rw [NFloat.div_ff (3 / 5) 1 one_ne_zero, NFloat.div_ff (4 / 5) 1 one_ne_zero]
    norm_num
  unfold stepOnce
  simp only [ev_idem_mv]
  rw [hnv]
  simp only [broadcast2_eq_len (by rfl :
    ([NFloat.fin (3 / 5), NFloat.fin (4 / 5)] : List NFloat).length =
    ([NFloat.fin (3 / 5), NFloat.fin (4 / 5)] : List NFloat).length)]
  have hdiff : List.zipWith NFloat.sub [NFloat.fin (3 / 5), NFloat.fin (4 / 5)]
      [NFloat.fin (3 / 5), NFloat.fin (4 / 5)] = [NFloat.fin 0, NFloat.fin 0] := by
    norm_num [NFloat.sub_ff]
  rw [hdiff, ev_zero_pair_norm, NFloat.flt_ff_true (by norm_num : (0 : ℝ) < 1 / 2)]

theorem ev_idem_extract :
    extractEig 2 2 [NFloat.fin 1, NFloat.fin 0, NFloat.fin 0, NFloat.fin 1]
      [NFloat.fin (3 / 5), NFloat.fin (4 / 5)] = .ok (NFloat.fin 1) := by
  unfold extractEig
  simp only [ev_idem_mv]
  simp only [broadcast2_eq_len (by rfl :
    ([NFloat.fin (3 / 5), NFloat.fin (4 / 5)] : List NFloat).length =
    ([NFloat.fin (3 / 5), NFloat.fin (4 / 5)] : List NFloat).length)]
  have hz : List.zipWith NFloat.div [NFloat.fin (3 / 5), NFloat.fin (4 / 5)]
      [NFloat.fin (3 / 5), NFloat.fin (4 / 5)] = [NFloat.fin 1, NFloat.fin 1] := by
    simp only [List.zipWith]
    rw [NFloat.div_ff (3 / 5) (3 / 5) (by norm_num),
      NFloat.div_ff (4 / 5) (4 / 5) (by norm_num)]
    norm_num
  rw [hz]
  norm_num [npMaxE, NFloat.max2_ff]

/-- the full run of `power_method` on the 2x2 identity with the unit vector
`x0 = [3/5, 4/5]`: an exact fixed point of the iteration, immediate
convergence, eigenvalue 1. -/
theorem ev_run_idem (it : ℕ) :
    power_method ⟨[2, 2], [NFloat.fin 1, NFloat.fin 0, NFloat.fin 0, NFloat.fin 1]⟩
      (some ⟨[2], [NFloat.fin (3 / 5), NFloat.fin (4 / 5)]⟩)
      (NFloat.fin (1 / 2)) (it + 1) =
      .ok (NFloat.fin 1, [NFloat.fin (3 / 5), NFloat.fin (4 / 5)]) := by
  unfold power_method
  rw [if_pos (show (⟨[2, 2], [NFloat.fin 1, NFloat.fin 0, NFloat.fin 0,
    NFloat.fin 1]⟩ : NDArray).shape.length = 2 from rfl)]
  have hres : resolveX0 2 (some ⟨[2], [NFloat.fin (3 / 5), NFloat.fin (4 / 5)]⟩) =
      .ok [NFloat.fin (3 / 5), NFloat.fin (4 / 5)] := rfl
  simp only [hres]
  show pmCore 2 2 [NFloat.fin 1, NFloat.fin 0, NFloat.fin 0, NFloat.fin 1]
    [NFloat.fin (3 / 5), NFloat.fin (4 / 5)] (NFloat.fin (1 / 2)) (it + 1) =
    .ok (NFloat.fin 1, [NFloat.fin (3 / 5), NFloat.fin (4 / 5)])
  unfold pmCore
  simp only [loopGo_succ_brk it ev_idem_step]
  simp only [ev_idem_extract]

theorem ev_rect_mv :
    matvec 1 2 [NFloat.fin 1, NFloat.fin 1] [NFloat.fin 2, NFloat.fin 2] =
      .ok [NFloat.fin 4] := by
  rw [matvec_ok_of_len (show ([NFloat.fin 2, NFloat.fin 2] :
    List NFloat).length = 2 from rfl)]
  norm_num [chunkRows, range_one_eq, dot, NFloat.mul_ff, NFloat.add_ff]

theorem ev_rect_step :
    stepOnce 1 2 [NFloat.fin 1, NFloat.fin 1] (NFloat.fin 1)
      [NFloat.fin 2, NFloat.fin 2] = .ok ([NFloat.fin 1], false) := by
  have hnorm : norml2 [NFloat.fin 4] = NFloat.fin 4 := by
    rw [norml2_single, Real.sqrt_mul_self (by norm_num : (0 : ℝ) ≤ 4)]
  have hnv : normalizeV [NFloat.fin 4] = [NFloat.fin 1] := by
    unfold normalizeV
    rw [hnorm]
    simp only [List.map_cons, List.map_nil]
    rw [NFloat.div_ff 4 4 (by norm_num)]
    norm_num
  unfold stepOnce
  simp only [ev_rect_mv]
  rw [hnv]
  rw [broadcast2_left_one (by norm_num) (by rfl :
    ([NFloat.fin 1] : List NFloat).length = 1)]
  simp only []
  have hdiff : ([NFloat.fin 2, NFloat.fin 2] : List NFloat).map
      (fun b => NFloat.sub ([NFloat.fin 1] : List NFloat).headI b) =
      [NFloat.fin (-1), NFloat.fin (-1)] := by
    simp only [List.map_cons, List.map_nil, List.headI]
    norm_num [NFloat.sub_ff]
  rw [hdiff]
  have hnd : norml2 [NFloat.fin (-1), NFloat.fin (-1)] =
      NFloat.fin (Real.sqrt 2) := by
    rw [norml2_pair]
    norm_num
  rw [hnd]
  rw [NFloat.flt_ff_false (by
    have := one_le_sqrt_two
    linarith)]

/-- the full run of `power_method` on the non-square `A = [[1, 1]]` (shape
`(1, 2)`, accepted by the validation) with `x0 = [2, 2]` and `max_iter = 1`:
the single iteration runs without converging, the cap is exhausted, and the
final eigenvalue extraction `A @ x` then fails with the matmul shape error —
exhaustion is NOT always followed by a successful return. -/
theorem ev_run_rect :
    power_method ⟨[1, 2], [NFloat.fin 1, NFloat.fin 1]⟩
      (some ⟨[2], [NFloat.fin 2, NFloat.fin 2]⟩) (NFloat.fin 1) 1 =
      .error .matmulShape := by
  unfold power_method
  rw [if_pos (show (⟨[1, 2], [NFloat.fin 1, NFloat.fin 1]⟩ :
    NDArray).shape.length = 2 from rfl)]
  have hres : resolveX0 2 (some ⟨[2], [NFloat.fin 2, NFloat.fin 2]⟩) =
      .ok [NFloat.fin 2, NFloat.fin 2] := rfl
  simp only [hres]
  show pmCore 1 2 [NFloat.fin 1, NFloat.fin 1] [NFloat.fin 2, NFloat.fin 2]
    (NFloat.fin 1) 1 = .error .matmulShape
  unfold pmCore
  rw [loopGo_succ_cont 0 ev_rect_step]
  simp only [loopGo_zero]
  simp only [extractEig_err_of_len (show ([NFloat.fin 1] :
    List NFloat).length ≠ 2 by norm_num)]

/-- C1 counterexample: on `A = [[2, 0], [0, 1]]` with `x0 = [1, 0]` (accepted,
converging on the first iteration) the code divides over ALL components:
`(A x)/x = [2/1, 0/0] = [2, nan]`, and `np.max` propagates the NaN, so the
returned eigenvalue is NaN — whereas the claim's maximum restricted to the
components with `x[i] ≠ 0` is 2, and NaN ≠ 2. -/
theorem c1_counterexample :
    power_method ⟨[2, 2], [NFloat.fin 2, NFloat.fin 0, NFloat.fin 0, NFloat.fin 1]⟩
      (some ⟨[2], [NFloat.fin 1, NFloat.fin 0]⟩) (NFloat.fin (1 / 2)) 1 =
      .ok (NFloat.nan, [NFloat.fin 1, NFloat.fin 0]) ∧
    matvec 2 2 [NFloat.fin 2, NFloat.fin 0, NFloat.fin 0, NFloat.fin 1]
      [NFloat.fin 1, NFloat.fin 0] = .ok [NFloat.fin 2, NFloat.fin 0] ∧
    specEigMax [NFloat.fin 2, NFloat.fin 0] [NFloat.fin 1, NFloat.fin 0] =
      .ok (NFloat.fin 2) ∧
    NFloat.nan ≠ NFloat.fin 2 :=
  ⟨ev_run_diag (by norm_num) 0, ev_diag_mv, ev_diag_specmax,
    fun h => NFloat.noConfusion h⟩

/-- C1 witness: on a converged run the returned eigenvalue is exactly the
extraction applied to the returned vector. -/
theorem c1_eig_from_final_product_witness :
    extractEig 1 1 [NFloat.fin 2] [NFloat.fin 1] = .ok (NFloat.fin 2) :=
  c1_eig_from_final_product ⟨[1, 1], [NFloat.fin 2]⟩ none (NFloat.fin 1) 1
    (NFloat.fin 2) [NFloat.fin 1] (ev_run_pos1 2 (by norm_num) 1 (by norm_num) 0)

/-- C2 (amended): for a square `n x n` matrix (`n ≥ 1`), a positive iteration
cap, and a run that returns a pair, the returned eigenvector has Euclidean
norm EXACTLY 1 provided it is free of NaN/infinity entries.  The claim's
unconditional version fails: a degenerate iteration (`A x = 0`) plants NaNs
and the returned vector's norm is NaN (see the counterexample). -/
theorem c2_unit_norm (n : ℕ) (A : NDArray) (x0 : Option NDArray) (e : NFloat)
    (it : ℕ) (lam : NFloat) (xf : List NFloat)
    (hA : A.shape = [n, n]) (hn : 1 ≤ n) (hit : 1 ≤ it)
    (h : power_method A x0 e it = .ok (lam, xf)) (hfin : IsFinV xf) :
    norml2 xf = NFloat.fin 1 := by
  obtain ⟨-, x0l, c, -, hl, -⟩ := pm_ok_inv h
  obtain ⟨xp, y, hy, hxf⟩ := loopGo_ok_normalized it x0l xf c hit hl
  have hylen : y.length = n := by
    have hml := matvec_ok_length hy
    rw [hA] at hml
    simpa using hml
  have hyne : y ≠ [] := by
    intro hcon
    rw [hcon] at hylen
    simp at hylen
    omega
  rw [hxf]
  exact norml2_normalizeV_of_fin hyne (hxf ▸ hfin)

/-- C2 counterexample: the 1x1 zero matrix with the default `x0`, positive
`eps` and positive `max_iter` passes validation, but the returned vector is
`[nan]` whose norm is NaN, not 1. -/
theorem c2_counterexample :
    power_method ⟨[1, 1], [NFloat.fin 0]⟩ none (NFloat.fin 1) 1 =
      .ok (NFloat.nan, [NFloat.nan]) ∧
    norml2 [NFloat.nan] ≠ NFloat.fin 1 := by
  refine ⟨ev_run_zero1 (NFloat.fin 1) 0, ?_⟩
  rw [norml2_nan_single]
  exact fun h => NFloat.noConfusion h

/-- C2 witness: a clean converging run returns `[1]`, which is NaN-free, and
its norm is exactly 1. -/
theorem c2_unit_norm_witness : norml2 [NFloat.fin 1] = NFloat.fin 1 :=
  c2_unit_norm 1 ⟨[1, 1], [NFloat.fin 2]⟩ none (NFloat.fin 1) 1 (NFloat.fin 2)
    [NFloat.fin 1] rfl (by omega) (by omega)
    (ev_run_pos1 2 (by norm_num) 1 (by norm_num) 0)
    (by
      intro a ha
      rw [List.mem_singleton] at ha
      exact ⟨1, ha⟩)

/-- C5 counterexample: `A = [[1, 1]]` (2-D, accepted by shape validation)
with `x0 = [2, 2]` runs its single allowed iteration without converging,
and the call then FAILS with the matmul shape error instead of returning an
(eigenvalue, vector) pair. -/
theorem c5_counterexample :
    power_method ⟨[1, 2], [NFloat.fin 1, NFloat.fin 1]⟩
      (some ⟨[2], [NFloat.fin 2, NFloat.fin 2]⟩) (NFloat.fin 1) 1 =
      .error .matmulShape :=
  ev_run_rect

/-- C5 witness: a run that breaks on its first iteration uses exactly one
body execution out of the 4 allowed, 1 ≤ 4, and a square run returns a
pair. -/
theorem c5_loop_bounds_witness :
    loopGo 1 1 [NFloat.fin 2] (NFloat.fin 1) [NFloat.fin 1] 4 =
      .ok ([NFloat.fin 1], 1) ∧
    (1 : ℕ) ≤ 4 ∧
    isOkE (power_method ⟨[1, 1], [NFloat.fin 2]⟩ none (NFloat.fin 1) 7) = true := by
  have hstep : stepOnce 1 1 [NFloat.fin 2] (NFloat.fin 1) [NFloat.fin 1] =
      .ok ([NFloat.fin 1], true) := ev_pos1_step 2 (by norm_num) 1 (by norm_num)
  have h1 := c5_loop_bounds.2.1 1 1 [NFloat.fin 2] (NFloat.fin 1) 3
    [NFloat.fin 1] [NFloat.fin 1] hstep
  refine ⟨h1, c5_loop_bounds.1 1 1 [NFloat.fin 2] (NFloat.fin 1) 4
    [NFloat.fin 1] [NFloat.fin 1] 1 h1, ?_⟩
  obtain ⟨lam, xf, hok⟩ := c5_loop_bounds.2.2 1 ⟨[1, 1], [NFloat.fin 2]⟩ none
    [NFloat.fin 1] (NFloat.fin 1) 7 rfl (by omega) ⟨rfl, rfl⟩
  rw [hok]
  rfl

/-- C6: numeric degeneracy raises no exception — for every square matrix
with a validated `x0` the call returns a pair whatever divisions by zero
occur along the way; concretely, the 1x1 zero matrix (zero norm during
normalization) returns `(nan, [nan])`, and the swap matrix stopped after one
iteration (zero denominator during extraction) returns `+inf` — the IEEE
values propagate into the result.  Confirmed as stated. -/
theorem c6_degenerate_no_error :
    (∀ (n : ℕ) (A : NDArray) (x0 : Option NDArray) (v : List NFloat)
        (e : NFloat) (it : ℕ),
      A.shape = [n, n] → 1 ≤ n → ResolvesTo n x0 v →
      ∃ res, power_method A x0 e it = .ok res) ∧
    power_method ⟨[1, 1], [NFloat.fin 0]⟩ none (NFloat.fin 1) 1 =
      .ok (NFloat.nan, [NFloat.nan]) ∧
    power_method ⟨[2, 2], [NFloat.fin 0, NFloat.fin 1, NFloat.fin 1, NFloat.fin 0]⟩
      (some ⟨[2], [NFloat.fin 1, NFloat.fin 0]⟩) (NFloat.fin (1 / 2)) 1 =
      .ok (NFloat.posInf, [NFloat.fin 0, NFloat.fin 1]) := by
  refine ⟨?_, ev_run_zero1 (NFloat.fin 1) 0, ev_run_osc⟩
  intro n A x0 v e it hA hn hres
  obtain ⟨lam, xf, h⟩ := pm_square_ok e it hA hn hres
  exact ⟨(lam, xf), h⟩

/-- C6 witness: the degenerate zero-matrix call indeed returns successfully. -/
theorem c6_degenerate_no_error_witness :
    isOkE (power_method ⟨[1, 1], [NFloat.fin 0]⟩ none (NFloat.fin 1) 3) = true := by
  obtain ⟨res, h⟩ := c6_degenerate_no_error.1 1 ⟨[1, 1], [NFloat.fin 0]⟩ none
    [NFloat.fin 1] (NFloat.fin 1) 3 rfl (by omega) ⟨rfl, rfl⟩
  rw [h]
  rfl

theorem ev_jump_mv1 :
    matvec 2 2 [NFloat.fin 11, NFloat.fin 0, NFloat.fin 12, NFloat.fin 5]
      [NFloat.fin (15 / 17), NFloat.fin (8 / 17)] =
      .ok [NFloat.fin (165 / 17), NFloat.fin (220 / 17)] := by
  rw [ev_mv2]
  norm_num

theorem ev_jump_mv2 :
    matvec 2 2 [NFloat.fin 11, NFloat.fin 0, NFloat.fin 12, NFloat.fin 5]
      [NFloat.fin (3 / 5), NFloat.fin (4 / 5)] =
      .ok [NFloat.fin (33 / 5), NFloat.fin (56 / 5)] := by
  rw [ev_mv2]
  norm_num

theorem ev_jump_mv3 :
    matvec 2 2 [NFloat.fin 11, NFloat.fin 0, NFloat.fin 12, NFloat.fin 5]
      [NFloat.fin (33 / 65), NFloat.fin (56 / 65)] =
      .ok [NFloat.fin (363 / 65), NFloat.fin (676 / 65)] := by
  rw [ev_mv2]
  norm_num

theorem ev_jump_nv1 :
    normalizeV [NFloat.fin (165 / 17), NFloat.fin (220 / 17)] =
      [NFloat.fin (3 / 5), NFloat.fin (4 / 5)] := by
  have hnorm : norml2 [NFloat.fin (165 / 17), NFloat.fin (220 / 17)] =
      NFloat.fin (275 / 17) := by
    rw [norml2_pair,
      show (165 / 17 : ℝ) * (165 / 17) + 220 / 17 * (220 / 17) = (275 / 17) ^ 2
        by norm_num,
      Real.sqrt_sq (by norm_num)]
  unfold normalizeV
  rw [hnorm]
  simp only [List.map_cons, List.map_nil]
  rw [NFloat.div_ff _ _ (by norm_num : (275 / 17 : ℝ) ≠ 0),
    NFloat.div_ff _ _ (by norm_num : (275 / 17 : ℝ) ≠ 0)]
  norm_num

theorem ev_jump_nv2 :
    normalizeV [NFloat.fin (33 / 5), NFloat.fin (56 / 5)] =
      [NFloat.fin (33 / 65), NFloat.fin (56 / 65)] := by
  have hnorm : norml2 [NFloat.fin (33 / 5), NFloat.fin (56 / 5)] =
      NFloat.fin 13 := by
    rw [norml2_pair,
      show (33 / 5 : ℝ) * (33 / 5) + 56 / 5 * (56 / 5) = (13 : ℝ) ^ 2
        by norm_num,
      Real.sqrt_sq (by norm_num)]
  unfold normalizeV
  rw [hnorm]
  simp only [List.map_cons, List.map_nil]
  rw [NFloat.div_ff _ _ (by norm_num : (13 : ℝ) ≠ 0),
    NFloat.div_ff _ _ (by norm_num : (13 : ℝ) ≠ 0)]
  norm_num

theorem ev_jump_step1 :
    stepOnce 2 2 [NFloat.fin 11, NFloat.fin 0, NFloat.fin 12, NFloat.fin 5]
      (NFloat.fin 1) [NFloat.fin (15 / 17), NFloat.fin (8 / 17)] =
      .ok ([NFloat.fin (3 / 5), NFloat.fin (4 / 5)], true) := by
  unfold stepOnce
  simp only [ev_jump_mv1]
  rw [ev_jump_nv1]
  simp only [broadcast2_eq_len (by rfl :
    ([NFloat.fin (3 / 5), NFloat.fin (4 / 5)] : List NFloat).length =
    ([NFloat.fin (15 / 17), NFloat.fin (8 / 17)] : List NFloat).length)]
  have hdiff : List.zipWith NFloat.sub [NFloat.fin (3 / 5), NFloat.fin (4 / 5)]
      [NFloat.fin (15 / 17), NFloat.fin (8 / 17)] =
      [NFloat.fin (-(24 / 85)), NFloat.fin (28 / 85)] := by
    norm_num [NFloat.sub_ff]
  rw [hdiff]
  have hnd : norml2 [NFloat.fin (-(24 / 85)), NFloat.fin (28 / 85)] =
      NFloat.fin (Real.sqrt (16 / 85)) := by
    rw [norml2_pair,
      show (-(24 / 85) : ℝ) * (-(24 / 85)) + 28 / 85 * (28 / 85) = 16 / 85
        by norm_num]
  rw [hnd]
  have hlt : Real.sqrt (16 / 85) < 1 := by
    have h1 : Real.sqrt (16 / 85) < Real.sqrt 1 :=
      Real.sqrt_lt_sqrt (by norm_num) (by norm_num)
    simpa [Real.sqrt_one] using h1
  rw [NFloat.flt_ff_true hlt]

theorem ev_jump_step2 :
    stepOnce 2 2 [NFloat.fin 11, NFloat.fin 0, NFloat.fin 12, NFloat.fin 5]
      (NFloat.fin 1) [NFloat.fin (3 / 5), NFloat.fin (4 / 5)] =
      .ok ([NFloat.fin (33 / 65), NFloat.fin (56 / 65)], true) := by
  unfold stepOnce
  simp only [ev_jump_mv2]
  rw [ev_jump_nv2]
  simp only [broadcast2_eq_len (by rfl :
    ([NFloat.fin (33 / 65), NFloat.fin (56 / 65)] : List NFloat).length =
    ([NFloat.fin (3 / 5), NFloat.fin (4 / 5)] : List NFloat).length)]
  have hdiff : List.zipWith NFloat.sub
      [NFloat.fin (33 / 65), NFloat.fin (56 / 65)]
      [NFloat.fin (3 / 5), NFloat.fin (4 / 5)] =
      [NFloat.fin (-(6 / 65)), NFloat.fin (4 / 65)] := by
    norm_num [NFloat.sub_ff]
  rw [hdiff]
  have hnd : norml2 [NFloat.fin (-(6 / 65)), NFloat.fin (4 / 65)] =
      NFloat.fin (Real.sqrt (4 / 325)) := by
    rw [norml2_pair,
      show (-(6 / 65) : ℝ) * (-(6 / 65)) + 4 / 65 * (4 / 65) = 4 / 325
        by norm_num]
  rw [hnd]
  have hlt : Real.sqrt (4 / 325) < 1 := by
    have h1 : Real.sqrt (4 / 325) < Real.sqrt 1 :=
      Real.sqrt_lt_sqrt (by norm_num) (by norm_num)
    simpa [Real.sqrt_one] using h1
  rw [NFloat.flt_ff_true hlt]

theorem ev_jump_extract1 :
    extractEig 2 2 [NFloat.fin 11, NFloat.fin 0, NFloat.fin 12, NFloat.fin 5]
      [NFloat.fin (3 / 5), NFloat.fin (4 / 5)] = .ok (NFloat.fin 14) := by
  unfold extractEig
  simp only [ev_jump_mv2]
  simp only [broadcast2_eq_len (by rfl :
    ([NFloat.fin (33 / 5), NFloat.fin (56 / 5)] : List NFloat).length =
    ([NFloat.fin (3 / 5), NFloat.fin (4 / 5)] : List NFloat).length)]
  have hz : List.zipWith NFloat.div [NFloat.fin (33 / 5), NFloat.fin (56 / 5)]
      [NFloat.fin (3 / 5), NFloat.fin (4 / 5)] =
      [NFloat.fin 11, NFloat.fin 14] := by
    simp only [List.zipWith]
    rw [NFloat.div_ff _ _ (by norm_num : (3 / 5 : ℝ) ≠ 0),
      NFloat.div_ff _ _ (by norm_num : (4 / 5 : ℝ) ≠ 0)]
    norm_num
  rw [hz]
  have hmax : NFloat.max2 (NFloat.fin 11) (NFloat.fin 14) = NFloat.fin 14 := by
    rw [NFloat.max2_ff, max_eq_right (by norm_num : (11 : ℝ) ≤ 14)]
  simp [npMaxE, hmax]

theorem ev_jump_extract2 :
    extractEig 2 2 [NFloat.fin 11, NFloat.fin 0, NFloat.fin 12, NFloat.fin 5]
      [NFloat.fin (33 / 65), NFloat.fin (56 / 65)] =
      .ok (NFloat.fin (169 / 14)) := by
  unfold extractEig
  simp only [ev_jump_mv3]
  simp only [broadcast2_eq_len (by rfl :
    ([NFloat.fin (363 / 65), NFloat.fin (676 / 65)] : List NFloat).length =
    ([NFloat.fin (33 / 65), NFloat.fin (56 / 65)] : List NFloat).length)]
  have hz : List.zipWith NFloat.div
      [NFloat.fin (363 / 65), NFloat.fin (676 / 65)]
      [NFloat.fin (33 / 65), NFloat.fin (56 / 65)] =
      [NFloat.fin 11, NFloat.fin (169 / 14)] := by
    simp only [List.zipWith]
    rw [NFloat.div_ff _ _ (by norm_num : (33 / 65 : ℝ) ≠ 0),
      NFloat.div_ff _ _ (by norm_num : (56 / 65 : ℝ) ≠ 0)]
    norm_num
  rw [hz]
  have hmax : NFloat.max2 (NFloat.fin 11) (NFloat.fin (169 / 14)) =
      NFloat.fin (169 / 14) := by
    rw [NFloat.max2_ff, max_eq_right (by norm_num : (11 : ℝ) ≤ 169 / 14)]
  simp [npMaxE, hmax]

/-- run 1 of the eigenvalue-jump pair: `A = [[11, 0], [12, 5]]` with
`x0 = [15/17, 8/17]`, `eps = 1`, `max_iter = 1` converges on its first
iteration (error `sqrt(16/85) < 1`) and returns `(14, [3/5, 4/5])`. -/
theorem ev_run_jump1 :
    power_method ⟨[2, 2], [NFloat.fin 11, NFloat.fin 0, NFloat.fin 12, NFloat.fin 5]⟩
      (some ⟨[2], [NFloat.fin (15 / 17), NFloat.fin (8 / 17)]⟩)
      (NFloat.fin 1) 1 =
      .ok (NFloat.fin 14, [NFloat.fin (3 / 5), NFloat.fin (4 / 5)]) := by
  unfold power_method
  rw [if_pos (show (⟨[2, 2], [NFloat.fin 11, NFloat.fin 0, NFloat.fin 12,
    NFloat.fin 5]⟩ : NDArray).shape.length = 2 from rfl)]
  have hres : resolveX0 2
      (some ⟨[2], [NFloat.fin (15 / 17), NFloat.fin (8 / 17)]⟩) =
      .ok [NFloat.fin (15 / 17), NFloat.fin (8 / 17)] := rfl
  simp only [hres]
  show pmCore 2 2 [NFloat.fin 11, NFloat.fin 0, NFloat.fin 12, NFloat.fin 5]
    [NFloat.fin (15 / 17), NFloat.fin (8 / 17)] (NFloat.fin 1) 1 =
    .ok (NFloat.fin 14, [NFloat.fin (3 / 5), NFloat.fin (4 / 5)])
  unfold pmCore
  simp only [loopGo_succ_brk 0 ev_jump_step1]
  simp only [ev_jump_extract1]

/-- run 2 of the eigenvalue-jump pair: the same call with run 1's returned
eigenvector `[3/5, 4/5]` supplied as `x0` also converges on its first
iteration (error `sqrt(4/325) < 1`) but returns `(169/14, [33/65, 56/65])` —
the eigenvalue moved by `27/14 >= eps`. -/
theorem ev_run_jump2 :
    power_method ⟨[2, 2], [NFloat.fin 11, NFloat.fin 0, NFloat.fin 12, NFloat.fin 5]⟩
      (some ⟨[2], [NFloat.fin (3 / 5), NFloat.fin (4 / 5)]⟩)
      (NFloat.fin 1) 1 =
      .ok (NFloat.fin (169 / 14), [NFloat.fin (33 / 65), NFloat.fin (56 / 65)]) := by
  unfold power_method
  rw [if_pos (show (⟨[2, 2], [NFloat.fin 11, NFloat.fin 0, NFloat.fin 12,
    NFloat.fin 5]⟩ : NDArray).shape.length = 2 from rfl)]
  have hres : resolveX0 2
      (some ⟨[2], [NFloat.fin (3 / 5), NFloat.fin (4 / 5)]⟩) =
      .ok [NFloat.fin (3 / 5), NFloat.fin (4 / 5)] := rfl
  simp only [hres]
  show pmCore 2 2 [NFloat.fin 11, NFloat.fin 0, NFloat.fin 12, NFloat.fin 5]
    [NFloat.fin (3 / 5), NFloat.fin (4 / 5)] (NFloat.fin 1) 1 =
    .ok (NFloat.fin (169 / 14), [NFloat.fin (33 / 65), NFloat.fin (56 / 65)])
  unfold pmCore
  simp only [loopGo_succ_brk 0 ev_jump_step2]
  simp only [ev_jump_extract2]

/-- C8 counterexample: the claim fails even away from shape and NaN
degeneracies.  (i) On `A = [[11, 0], [12, 5]]` (n = 2, everything finite)
with `eps = 1` and `max_iter = 1`, the first run CONVERGES (error
`sqrt(16/85) < eps`) and returns eigenvalue 14; rerunning with the returned
eigenvector `[3/5, 4/5]` as `x0` also converges but returns eigenvalue
`169/14` — the two eigenvalues differ by `27/14 >= eps`, so the results are
NOT effectively unchanged.  (ii) For `A = [[4]]` (n = 1) the converged run
returns `(4, [1])`, and the rerun with that shape-`(1,)` vector does not
return results at all: `np.squeeze` collapses it to 0-D and the call raises
the `x0` shape error. -/
theorem c8_counterexample :
    (power_method ⟨[2, 2], [NFloat.fin 11, NFloat.fin 0, NFloat.fin 12, NFloat.fin 5]⟩
        (some ⟨[2], [NFloat.fin (15 / 17), NFloat.fin (8 / 17)]⟩)
        (NFloat.fin 1) 1 =
        .ok (NFloat.fin 14, [NFloat.fin (3 / 5), NFloat.fin (4 / 5)]) ∧
      power_method ⟨[2, 2], [NFloat.fin 11, NFloat.fin 0, NFloat.fin 12, NFloat.fin 5]⟩
        (some ⟨[2], [NFloat.fin (3 / 5), NFloat.fin (4 / 5)]⟩)
        (NFloat.fin 1) 1 =
        .ok (NFloat.fin (169 / 14), [NFloat.fin (33 / 65), NFloat.fin (56 / 65)]) ∧
      ¬ |(14 : ℝ) - 169 / 14| < 1) ∧
    power_method ⟨[1, 1], [NFloat.fin 4]⟩ none (NFloat.fin (1 / 2)) 10 =
      .ok (NFloat.fin 4, [NFloat.fin 1]) ∧
    power_method ⟨[1, 1], [NFloat.fin 4]⟩ (some ⟨[1], [NFloat.fin 1]⟩)
      (NFloat.fin (1 / 2)) 10 = .error .x0Shape := by
  refine ⟨⟨ev_run_jump1, ev_run_jump2, by rw [abs_of_pos (by norm_num)]; norm_num⟩, ?_, ?_⟩
  · exact ev_run_pos1 4 (by norm_num) (1 / 2) (by norm_num) 9
  · unfold power_method
    rw [if_pos (show (⟨[1, 1], [NFloat.fin 4]⟩ : NDArray).shape.length = 2
      from rfl)]
    have hres : resolveX0 (([1, 1] : List ℕ).getD 1 0)
        (some ⟨[1], [NFloat.fin 1]⟩) = .error .x0Shape := by
      show validateX0 ⟨[1], [NFloat.fin 1]⟩ = .error .x0Shape
      unfold validateX0
      rw [if_neg (by decide)]
    simp only [hres]

/-- C8 (amended): if a run returns `(lam, x)` with the matrix dimension
`n ≥ 2` and `x` is an exact fixed point of the loop body which converges in
one step, then rerunning with `x` supplied as `x0` returns literally the
same pair `(lam, x)` — a difference of zero, hence below any positive
`eps`.  (The unrestricted claim fails: for `n = 1` the rerun raises a shape
error — see the counterexample — and NaN results compare unequal to
themselves.) -/
theorem c8_idempotent_fixed_point (n : ℕ) (A : NDArray) (x0 : Option NDArray)
    (e : NFloat) (it it2 : ℕ) (lam : NFloat) (xf : List NFloat)
    (hA : A.shape = [n, n]) (hn : 2 ≤ n)
    (h1 : power_method A x0 e it = .ok (lam, xf))
    (hfix : stepOnce n n A.data e xf = .ok (xf, true)) (hit2 : 1 ≤ it2) :
    power_method A (some ⟨[n], xf⟩) e it2 = .ok (lam, xf) := by
  obtain ⟨-, x0l, c, -, -, hex⟩ := pm_ok_inv h1
  have hhead : A.shape.headI = n := by rw [hA]; rfl
  have hget : A.shape.getD 1 0 = n := by rw [hA]; rfl
  rw [hhead, hget] at hex
  have hres : resolveX0 n (some ⟨[n], xf⟩) = .ok xf := by
    show validateX0 ⟨[n], xf⟩ = .ok xf
    unfold validateX0
    rw [if_pos (by
      show (([n] : List ℕ).filter (fun d => decide (d ≠ 1))).length = 1
      rw [List.filter_cons]
      rw [if_pos (by simp; omega)]
      rfl)]
    rfl
  unfold power_method
  rw [if_pos (by rw [hA]; rfl), hget, hhead]
  simp only [hres]
  obtain ⟨it3, rfl⟩ : ∃ it3, it2 = it3 + 1 := ⟨it2 - 1, by omega⟩
  unfold pmCore
  simp only [loopGo_succ_brk it3 hfix]
  simp only [hex]

/-- C8 witness: the identity matrix with the exact unit eigenvector
`[3/5, 4/5]`: the first run returns `(1, [3/5, 4/5])` and the rerun with
that vector returns the identical pair. -/
theorem c8_idempotent_fixed_point_witness :
    power_method ⟨[2, 2], [NFloat.fin 1, NFloat.fin 0, NFloat.fin 0, NFloat.fin 1]⟩
      (some ⟨[2], [NFloat.fin (3 / 5), NFloat.fin (4 / 5)]⟩)
      (NFloat.fin (1 / 2)) 7 =
      .ok (NFloat.fin 1, [NFloat.fin (3 / 5), NFloat.fin (4 / 5)]) :=
  c8_idempotent_fixed_point 2 _
    (some ⟨[2], [NFloat.fin (3 / 5), NFloat.fin (4 / 5)]⟩)
    (NFloat.fin (1 / 2)) 5 7 _ _ rfl (by omega) (ev_run_idem 4) ev_idem_step
    (by omega)
